import Mathlib

/-!
Verification of the CuttingSIM repository: a shallow embedding of the
cylinder mesh generator (src/CylinderGenerator.cpp) and of the
CutterVisualizer rendering and camera-input pipeline, together with
theorems settling the specification claims about them.

Floating-point arithmetic of the C++ source is embedded as exact real
arithmetic; machine integers as Int/Nat.
-/

namespace CuttingSIM

noncomputable section

open scoped Classical

/-- Embedding of MR::Vector3f: a 3D vector of real components. -/
structure Vec3 where
  x : ℝ
  y : ℝ
  z : ℝ

instance : Zero Vec3 := ⟨⟨0, 0, 0⟩⟩

instance : Add Vec3 := ⟨fun u v => ⟨u.x + v.x, u.y + v.y, u.z + v.z⟩⟩

instance : Neg Vec3 := ⟨fun v => ⟨-v.x, -v.y, -v.z⟩⟩

instance : Sub Vec3 := ⟨fun u v => ⟨u.x - v.x, u.y - v.y, u.z - v.z⟩⟩

instance : SMul ℝ Vec3 := ⟨fun c v => ⟨c * v.x, c * v.y, c * v.z⟩⟩

@[simp] theorem Vec3.zero_x : (0 : Vec3).x = 0 := rfl

@[simp] theorem Vec3.zero_y : (0 : Vec3).y = 0 := rfl

@[simp] theorem Vec3.zero_z : (0 : Vec3).z = 0 := rfl

@[simp] theorem Vec3.add_x (u v : Vec3) : (u + v).x = u.x + v.x := rfl

@[simp] theorem Vec3.add_y (u v : Vec3) : (u + v).y = u.y + v.y := rfl

@[simp] theorem Vec3.add_z (u v : Vec3) : (u + v).z = u.z + v.z := rfl

@[simp] theorem Vec3.sub_x (u v : Vec3) : (u - v).x = u.x - v.x := rfl

@[simp] theorem Vec3.sub_y (u v : Vec3) : (u - v).y = u.y - v.y := rfl

@[simp] theorem Vec3.sub_z (u v : Vec3) : (u - v).z = u.z - v.z := rfl

@[simp] theorem Vec3.smul_x (c : ℝ) (v : Vec3) : (c • v).x = c * v.x := rfl

@[simp] theorem Vec3.smul_y (c : ℝ) (v : Vec3) : (c • v).y = c * v.y := rfl

@[simp] theorem Vec3.smul_z (c : ℝ) (v : Vec3) : (c • v).z = c * v.z := rfl

@[ext] theorem Vec3.ext_xyz {u v : Vec3} (hx : u.x = v.x) (hy : u.y = v.y)
    (hz : u.z = v.z) : u = v := by
  cases u; cases v; simp_all

@[simp] theorem Vec3.mk_x (a b c : ℝ) : (⟨a, b, c⟩ : Vec3).x = a := rfl

@[simp] theorem Vec3.mk_y (a b c : ℝ) : (⟨a, b, c⟩ : Vec3).y = b := rfl

@[simp] theorem Vec3.mk_z (a b c : ℝ) : (⟨a, b, c⟩ : Vec3).z = c := rfl

/-- Dot product, embedding MR::dot. -/
def Vec3.dot (u v : Vec3) : ℝ := u.x * v.x + u.y * v.y + u.z * v.z

/-- Cross product, embedding MR::cross. -/
def Vec3.cross (u v : Vec3) : Vec3 :=
  ⟨u.y * v.z - u.z * v.y, u.z * v.x - u.x * v.z, u.x * v.y - u.y * v.x⟩

/-- Squared Euclidean length. -/
def Vec3.normSq (v : Vec3) : ℝ := v.x * v.x + v.y * v.y + v.z * v.z

/-- Euclidean length, embedding MR::Vector3f::length. -/
def Vec3.norm (v : Vec3) : ℝ := Real.sqrt v.normSq

/-- Modelled from the spec: MR::Vector3f::normalized of the external
geometry library (missing from src/), "normalize direction": the vector
divided by its length. -/
def Vec3.normalized (v : Vec3) : Vec3 := (1 / v.norm) • v

/-- Embedding of MR::Mesh as used by this repository: indexed vertex
coordinates plus a triangulation of vertex-index triples. -/
structure Mesh where
  points : List Vec3
  tris : List (ℕ × ℕ × ℕ)

/-- The empty mesh, embedding a default-constructed MR::Mesh. -/
def emptyMesh : Mesh := ⟨[], []⟩

/-- Embedding of struct CylinderParams (CylinderGenerator.h). -/
structure CylinderParams where
  length : ℝ
  diameter : ℝ
  segments : ℤ

/-- Embedding of CylinderParams::getRadius. -/
def CylinderParams.getRadius (p : CylinderParams) : ℝ := p.diameter / 2

/-- The angle `2.0f * MR::PI_F * i / segments` of ring vertex i
(CylinderGenerator.cpp lines 60, 72). -/
def ringAngle (s i : ℕ) : ℝ := 2 * Real.pi * i / s

/-- A ring vertex `(radius*cos(angle), radius*sin(angle), zc)`
(CylinderGenerator.cpp lines 61-64, 73-76). -/
def ringPoint (radius zc : ℝ) (s i : ℕ) : Vec3 :=
  ⟨radius * Real.cos (ringAngle s i), radius * Real.sin (ringAngle s i), zc⟩

/-- The vertex list built by CylinderGenerator::generate (lines 47-77):
index 0 the top center `(0,0,halfLength)`, index 1 the bottom center
`(0,0,-halfLength)`, indices 2..2+s-1 the top ring, indices
2+s..2+2s-1 the bottom ring, in source push order. -/
def genPoints (radius half : ℝ) (s : ℕ) : List Vec3 :=
  ⟨0, 0, half⟩ :: ⟨0, 0, -half⟩ ::
    ((List.range s).map (ringPoint radius half s) ++
     (List.range s).map (ringPoint radius (-half) s))

/-- The triangle list built by CylinderGenerator::generate (lines 79-101):
top cap `(topCenter, topRing[(i+1)%s], topRing[i])`, bottom cap
`(bottomCenter, bottomRing[i], bottomRing[(i+1)%s])`, then for each i two
side triangles, in source push order. -/
def genTris (s : ℕ) : List (ℕ × ℕ × ℕ) :=
  (List.range s).map (fun i => (0, 2 + (i + 1) % s, 2 + i)) ++
  (List.range s).map (fun i => (1, 2 + s + i, 2 + s + (i + 1) % s)) ++
  (List.range s).flatMap (fun i =>
    [(2 + i, 2 + (i + 1) % s, 2 + s + i),
     (2 + (i + 1) % s, 2 + s + (i + 1) % s, 2 + s + i)])

/-- Embedding of CylinderGenerator::generate (CylinderGenerator.cpp
lines 28-109): guard clause returning the empty mesh, otherwise the
vertex and triangle lists above. -/
def generate (p : CylinderParams) : Mesh :=
  if p.segments < 3 ∨ p.getRadius ≤ 0 ∨ p.length ≤ 0 then emptyMesh
  else ⟨genPoints p.getRadius (p.length / 2) p.segments.toNat,
        genTris p.segments.toNat⟩

/-- Embedding of std::clamp on reals. -/
def clampR (v lo hi : ℝ) : ℝ := max lo (min v hi)

/-- The native cylinder axis, `MR::Vector3f defaultDir(0, 0, 1)`. -/
def zAxis : Vec3 := ⟨0, 0, 1⟩

/-- Modelled from the spec: MR::Matrix3f::rotation(axis, angle) of the
external geometry library (missing from src/), "build a rotation about
that axis by that angle": the standard axis-angle rotation applied to a
vector (Rodrigues form). -/
def rotAxisAngle (k : Vec3) (θ : ℝ) (v : Vec3) : Vec3 :=
  Real.cos θ • v + Real.sin θ • k.cross v + ((1 - Real.cos θ) * k.dot v) • k

/-- Embedding of CylinderGenerator::generateAt (CylinderGenerator.cpp
lines 111-148): generate, empty short-circuit, then either a pure
translation (when |dot| > 0.9999) or rotation about
normalize(cross(z, dir)) by acos(clamp(dot,-1,1)) followed by the
translation, applied to every point. -/
def generateAt (p : CylinderParams) (position direction : Vec3) : Mesh :=
  let mesh := generate p
  if mesh.points = [] then mesh
  else
    let targetDir := direction.normalized
    if |zAxis.dot targetDir| > 0.9999 then
      { mesh with points := mesh.points.map (fun v => v + position) }
    else
      let axis := (zAxis.cross targetDir).normalized
      let angle := Real.arccos (clampR (zAxis.dot targetDir) (-1) 1)
      { mesh with
        points := mesh.points.map (fun v => rotAxisAngle axis angle v + position) }

/-- The guard of generate is false for a valid parameter set. -/
theorem generate_of_valid (p : CylinderParams) (h3 : 3 ≤ p.segments)
    (hr : 0 < p.getRadius) (hl : 0 < p.length) :
    generate p = ⟨genPoints p.getRadius (p.length / 2) p.segments.toNat,
                  genTris p.segments.toNat⟩ := by
  unfold generate
  rw [if_neg]
  rintro (h | h | h) <;> first | omega | linarith

theorem genPoints_length (radius half : ℝ) (s : ℕ) :
    (genPoints radius half s).length = 2 + (s + s) := by
  simp [genPoints]
  omega

theorem genTris_length (s : ℕ) : (genTris s).length = s + s + 2 * s := by
  have h2 : ∀ i : ℕ,
      ([(2 + i, 2 + (i + 1) % s, 2 + s + i),
        (2 + (i + 1) % s, 2 + s + (i + 1) % s, 2 + s + i)]).length = 2 :=
    fun _ => rfl
  simp only [genTris, List.length_append, List.length_map, List.length_range,
    List.length_flatMap, List.map_map, Function.comp_def, h2,
    List.map_const', List.length_range, List.sum_replicate, smul_eq_mul]
  omega

/-- C1: for every parameter set with segments >= 3, radius > 0 and
length > 0, CylinderGenerator::generate returns a mesh with exactly
2*segments + 2 vertices and exactly 4*segments triangles, and every
triangle's three vertex indices are within the vertex-count bounds (in
particular, for length 50, diameter 6, segments 64 it yields 130 vertices
and 256 triangles, see the witness). -/
theorem generate_counts (p : CylinderParams) (h3 : 3 ≤ p.segments)
    (hr : 0 < p.getRadius) (hl : 0 < p.length) :
    (generate p).points.length = 2 * p.segments.toNat + 2 ∧
    (generate p).tris.length = 4 * p.segments.toNat ∧
    ∀ t ∈ (generate p).tris,
      t.1 < (generate p).points.length ∧
      t.2.1 < (generate p).points.length ∧
      t.2.2 < (generate p).points.length := by
  rw [generate_of_valid p h3 hr hl]
  set s := p.segments.toNat with hs
  have hs3 : 3 ≤ s := by omega
  refine ⟨by rw [genPoints_length]; omega, by rw [genTris_length]; omega, ?_⟩
  intro t ht
  rw [genPoints_length]
  simp only [genTris, List.mem_append, List.mem_map, List.mem_flatMap,
    List.mem_range] at ht
  rcases ht with (⟨i, hi, rfl⟩ | ⟨i, hi, rfl⟩) | ⟨i, hi, hmem⟩
  · have := Nat.mod_lt (i + 1) (show 0 < s by omega)
    simp only
    omega
  · have := Nat.mod_lt (i + 1) (show 0 < s by omega)
    simp only
    omega
  · have := Nat.mod_lt (i + 1) (show 0 < s by omega)
    simp only [List.mem_cons, List.mem_singleton] at hmem
    rcases hmem with rfl | rfl | h
    · simp only; omega
    · simp only; omega
    · exact absurd h (List.not_mem_nil _)

/-- C1 witness: the end-to-end scenario, length 50, diameter 6,
segments 64: 130 vertices and 256 triangles. -/
theorem generate_counts_witness :
    (3 ≤ (⟨50, 6, 64⟩ : CylinderParams).segments ∧
     0 < (⟨50, 6, 64⟩ : CylinderParams).getRadius ∧
     0 < (⟨50, 6, 64⟩ : CylinderParams).length) ∧
    (generate ⟨50, 6, 64⟩).points.length = 130 ∧
    (generate ⟨50, 6, 64⟩).tris.length = 256 := by
  have h3 : 3 ≤ (⟨50, 6, 64⟩ : CylinderParams).segments := by norm_num
  have hr : 0 < (⟨50, 6, 64⟩ : CylinderParams).getRadius := by
    norm_num [CylinderParams.getRadius]
  have hl : 0 < (⟨50, 6, 64⟩ : CylinderParams).length := by norm_num
  obtain ⟨h1, h2, _⟩ := generate_counts ⟨50, 6, 64⟩ h3 hr hl
  exact ⟨⟨h3, hr, hl⟩, by rw [h1]; rfl, by rw [h2]; rfl⟩

/-- C2: for every parameter set with segments < 3, or radius <= 0, or
length <= 0, generate returns the empty mesh (zero vertices, zero
triangles) rather than raising any error, and generateAt propagates that
empty mesh unchanged for every position and direction. -/
theorem generate_invalid (p : CylinderParams) (pos dir : Vec3)
    (h : p.segments < 3 ∨ p.getRadius ≤ 0 ∨ p.length ≤ 0) :
    generate p = emptyMesh ∧ generateAt p pos dir = emptyMesh := by
  have hg : generate p = emptyMesh := by unfold generate; exact if_pos h
  refine ⟨hg, ?_⟩
  unfold generateAt
  rw [hg]
  rfl

/-- C2 witness: segments 2 with the default sizes yields the empty mesh
from both generate and generateAt. -/
theorem generate_invalid_witness :
    ((⟨50, 6, 2⟩ : CylinderParams).segments < 3 ∨
     (⟨50, 6, 2⟩ : CylinderParams).getRadius ≤ 0 ∨
     (⟨50, 6, 2⟩ : CylinderParams).length ≤ 0) ∧
    generate ⟨50, 6, 2⟩ = emptyMesh ∧
    generateAt ⟨50, 6, 2⟩ ⟨1, 2, 3⟩ ⟨0, 1, 0⟩ = emptyMesh := by
  have h : (⟨50, 6, 2⟩ : CylinderParams).segments < 3 ∨
      (⟨50, 6, 2⟩ : CylinderParams).getRadius ≤ 0 ∨
      (⟨50, 6, 2⟩ : CylinderParams).length ≤ 0 := Or.inl (by norm_num)
  exact ⟨h, generate_invalid ⟨50, 6, 2⟩ ⟨1, 2, 3⟩ ⟨0, 1, 0⟩ h⟩

theorem cos_ringAngle_3_1 : Real.cos (ringAngle 3 1) = -(1 / 2) := by
  have h : ringAngle 3 1 = Real.pi - Real.pi / 3 := by
    unfold ringAngle
    push_cast
    ring
  rw [h, Real.cos_pi_sub, Real.cos_pi_div_three]

theorem cos_ringAngle_3_2 : Real.cos (ringAngle 3 2) = -(1 / 2) := by
  have h : ringAngle 3 2 = 2 * Real.pi - (Real.pi - Real.pi / 3) := by
    unfold ringAngle
    push_cast
    ring
  rw [h, Real.cos_two_pi_sub, Real.cos_pi_sub, Real.cos_pi_div_three]

/-- The statement of claim C3 at one parameter set: the axis-aligned
bounding box of the generated mesh equals exactly
[-radius,radius] x [-radius,radius] x [-length/2,length/2], expressed as
tight bounds: every vertex lies in the box and each of its six faces is
attained by some vertex. -/
def bboxEqClaim (p : CylinderParams) : Prop :=
  (∀ v ∈ (generate p).points,
    -p.getRadius ≤ v.x ∧ v.x ≤ p.getRadius ∧
    -p.getRadius ≤ v.y ∧ v.y ≤ p.getRadius ∧
    -(p.length / 2) ≤ v.z ∧ v.z ≤ p.length / 2) ∧
  (∃ v ∈ (generate p).points, v.x = -p.getRadius) ∧
  (∃ v ∈ (generate p).points, v.x = p.getRadius) ∧
  (∃ v ∈ (generate p).points, v.y = -p.getRadius) ∧
  (∃ v ∈ (generate p).points, v.y = p.getRadius) ∧
  (∃ v ∈ (generate p).points, v.z = -(p.length / 2)) ∧
  (∃ v ∈ (generate p).points, v.z = p.length / 2)

/-- C3 counterexample: for segments = 3 (valid: 3 >= 3, radius 3 > 0,
length 50 > 0) no vertex attains x = -radius: the smallest x coordinate
is -radius/2 = -3/2, so the bounding box is strictly smaller than
[-r,r] x [-r,r] x [-l/2,l/2] and the claim fails for small odd segment
counts. -/
theorem bbox_cex : ¬ bboxEqClaim ⟨50, 6, 3⟩ := by
  intro hcl
  obtain ⟨-, ⟨v, hv, hx⟩, -⟩ := hcl
  have hgen : generate ⟨50, 6, 3⟩ =
      ⟨genPoints ((6 : ℝ) / 2) ((50 : ℝ) / 2) 3, genTris 3⟩ :=
    generate_of_valid ⟨50, 6, 3⟩ (by norm_num)
      (by norm_num [CylinderParams.getRadius]) (by norm_num)
  rw [hgen] at hv
  have hr3 : List.range 3 = [0, 1, 2] := rfl
  simp only [genPoints, hr3, List.map_cons, List.map_nil, List.mem_cons,
    List.mem_append, List.mem_singleton, List.not_mem_nil, or_false] at hv
  have ha0 : ringAngle 3 0 = 0 := by
    unfold ringAngle
    push_cast
    ring
  rcases hv with rfl | rfl | (rfl | rfl | rfl) | (rfl | rfl | rfl) <;>
    simp only [ringPoint, CylinderParams.getRadius, ha0, Real.cos_zero,
      cos_ringAngle_3_1, cos_ringAngle_3_2] at hx <;>
    norm_num at hx

/-- C3 (amended): for every valid parameter set the mesh lies inside the
box [-r,r] x [-r,r] x [-l/2,l/2], and the two z faces and the +x face are
attained exactly; for segment counts that are not multiples of 4 (such as
3) the -x and the two y faces need not be attained, so the bounding box
can be strictly smaller than the full box in x and y. -/
theorem bbox_bounds (p : CylinderParams) (h3 : 3 ≤ p.segments)
    (hr : 0 < p.getRadius) (hl : 0 < p.length) :
    (∀ v ∈ (generate p).points,
      -p.getRadius ≤ v.x ∧ v.x ≤ p.getRadius ∧
      -p.getRadius ≤ v.y ∧ v.y ≤ p.getRadius ∧
      -(p.length / 2) ≤ v.z ∧ v.z ≤ p.length / 2) ∧
    (∃ v ∈ (generate p).points, v.z = p.length / 2) ∧
    (∃ v ∈ (generate p).points, v.z = -(p.length / 2)) ∧
    (∃ v ∈ (generate p).points, v.x = p.getRadius) := by
  have hgen := generate_of_valid p h3 hr hl
  set r := p.getRadius with hrdef
  set hL := p.length / 2 with hLdef
  have hL0 : 0 < hL := by positivity
  have hs0 : 0 < p.segments.toNat := by omega
  have hbound : ∀ (zc : ℝ) (i : ℕ), -hL ≤ zc → zc ≤ hL →
      -r ≤ (ringPoint r zc p.segments.toNat i).x ∧
      (ringPoint r zc p.segments.toNat i).x ≤ r ∧
      -r ≤ (ringPoint r zc p.segments.toNat i).y ∧
      (ringPoint r zc p.segments.toNat i).y ≤ r ∧
      -hL ≤ (ringPoint r zc p.segments.toNat i).z ∧
      (ringPoint r zc p.segments.toNat i).z ≤ hL := by
    intro zc i hz1 hz2
    have hc := Real.neg_one_le_cos (ringAngle p.segments.toNat i)
    have hc' := Real.cos_le_one (ringAngle p.segments.toNat i)
    have hsn := Real.neg_one_le_sin (ringAngle p.segments.toNat i)
    have hsn' := Real.sin_le_one (ringAngle p.segments.toNat i)
    refine ⟨?_, ?_, ?_, ?_, hz1, hz2⟩ <;> simp only [ringPoint] <;> nlinarith
  constructor
  · intro v hv
    rw [hgen] at hv
    simp only [genPoints, List.mem_cons, List.mem_append, List.mem_map,
      List.mem_range] at hv
    rcases hv with rfl | rfl | ⟨i, hi, rfl⟩ | ⟨i, hi, rfl⟩
    · simp only [Vec3.mk_x, Vec3.mk_y, Vec3.mk_z]
      exact ⟨by linarith, by linarith, by linarith, by linarith,
        by linarith, le_refl _⟩
    · simp only [Vec3.mk_x, Vec3.mk_y, Vec3.mk_z]
      exact ⟨by linarith, by linarith, by linarith, by linarith,
        le_refl _, by linarith⟩
    · exact hbound hL i (by linarith) (le_refl _)
    · exact hbound (-hL) i (le_refl _) (by linarith)
  refine ⟨⟨⟨0, 0, hL⟩, ?_, rfl⟩, ⟨⟨0, 0, -hL⟩, ?_, rfl⟩,
    ⟨ringPoint r hL p.segments.toNat 0, ?_, ?_⟩⟩
  · rw [hgen]
    exact List.mem_cons_self _ _
  · rw [hgen]
    exact List.mem_cons_of_mem _ (List.mem_cons_self _ _)
  · rw [hgen]
    refine List.mem_cons_of_mem _ (List.mem_cons_of_mem _ ?_)
    exact List.mem_append_left _ (List.mem_map_of_mem _ (List.mem_range.mpr hs0))
  · have ha0 : ringAngle p.segments.toNat 0 = 0 := by
      unfold ringAngle
      push_cast
      ring
    simp [ringPoint, ha0]

/-- C3 witness: the amended bounds at length 50, diameter 6, segments 3. -/
theorem bbox_bounds_witness :
    (3 ≤ (⟨50, 6, 3⟩ : CylinderParams).segments ∧
     0 < (⟨50, 6, 3⟩ : CylinderParams).getRadius ∧
     0 < (⟨50, 6, 3⟩ : CylinderParams).length) ∧
    ((∀ v ∈ (generate ⟨50, 6, 3⟩).points,
      -(⟨50, 6, 3⟩ : CylinderParams).getRadius ≤ v.x ∧
      v.x ≤ (⟨50, 6, 3⟩ : CylinderParams).getRadius ∧
      -(⟨50, 6, 3⟩ : CylinderParams).getRadius ≤ v.y ∧
      v.y ≤ (⟨50, 6, 3⟩ : CylinderParams).getRadius ∧
      -((⟨50, 6, 3⟩ : CylinderParams).length / 2) ≤ v.z ∧
      v.z ≤ (⟨50, 6, 3⟩ : CylinderParams).length / 2) ∧
    (∃ v ∈ (generate ⟨50, 6, 3⟩).points,
      v.z = (⟨50, 6, 3⟩ : CylinderParams).length / 2) ∧
    (∃ v ∈ (generate ⟨50, 6, 3⟩).points,
      v.z = -((⟨50, 6, 3⟩ : CylinderParams).length / 2)) ∧
    (∃ v ∈ (generate ⟨50, 6, 3⟩).points,
      v.x = (⟨50, 6, 3⟩ : CylinderParams).getRadius)) := by
  have h3 : 3 ≤ (⟨50, 6, 3⟩ : CylinderParams).segments := by norm_num
  have hr : 0 < (⟨50, 6, 3⟩ : CylinderParams).getRadius := by
    norm_num [CylinderParams.getRadius]
  have hl : 0 < (⟨50, 6, 3⟩ : CylinderParams).length := by norm_num
  exact ⟨⟨h3, hr, hl⟩, bbox_bounds ⟨50, 6, 3⟩ h3 hr hl⟩

/-- Vertex lookup by index, total with a zero default. -/
def triVert (m : Mesh) (j : ℕ) : Vec3 := m.points.getD j 0

/-- The face normal of a triangle by the right-hand rule on its vertex
order: cross(v1 - v0, v2 - v0). -/
def triNormal (m : Mesh) (t : ℕ × ℕ × ℕ) : Vec3 :=
  (triVert m t.2.1 - triVert m t.1).cross (triVert m t.2.2 - triVert m t.1)

theorem genPoints_getD_top (radius half : ℝ) (s i : ℕ) (hi : i < s) :
    (genPoints radius half s).getD (2 + i) 0 = ringPoint radius half s i := by
  have h21 : 2 + i = i + 1 + 1 := by omega
  rw [h21]
  show ((⟨0, 0, half⟩ : Vec3) :: ⟨0, 0, -half⟩ ::
    ((List.range s).map (ringPoint radius half s) ++
     (List.range s).map (ringPoint radius (-half) s))).getD (i + 1 + 1) 0 = _
  rw [List.getD_cons_succ, List.getD_cons_succ,
    List.getD_append _ _ _ _ (by simpa using hi),
    List.getD_eq_getElem _ _ (by simpa using hi)]
  simp

theorem genPoints_getD_topCenter (radius half : ℝ) (s : ℕ) :
    (genPoints radius half s).getD 0 0 = ⟨0, 0, half⟩ := rfl

theorem genTris_getD_top (s i : ℕ) (hi : i < s) :
    (genTris s).getD i (0, 0, 0) = (0, 2 + (i + 1) % s, 2 + i) := by
  unfold genTris
  rw [List.getD_append _ _ _ _ (by simp; omega),
    List.getD_append _ _ _ _ (by simpa using hi),
    List.getD_eq_getElem _ _ (by simpa using hi)]
  simp

theorem sin_ringAngle_sub (s i : ℕ) (hs : 0 < s) (hi : i < s) :
    Real.sin (ringAngle s i - ringAngle s ((i + 1) % s)) =
      -Real.sin (2 * Real.pi / s) := by
  rcases Nat.lt_or_ge (i + 1) s with h | h
  · rw [Nat.mod_eq_of_lt h]
    have : ringAngle s i - ringAngle s (i + 1) = -(2 * Real.pi / s) := by
      unfold ringAngle
      have hs0 : (s : ℝ) ≠ 0 := Nat.cast_ne_zero.mpr hs.ne'
      field_simp
      ring
    rw [this, Real.sin_neg]
  · have hieq : i + 1 = s := by omega
    have hmod : (i + 1) % s = 0 := by
      rw [hieq, Nat.mod_self]
    rw [hmod]
    have harg : ringAngle s i - ringAngle s 0 = 2 * Real.pi - 2 * Real.pi / s := by
      unfold ringAngle
      have hs0 : (s : ℝ) ≠ 0 := Nat.cast_ne_zero.mpr hs.ne'
      have hiR : (i : ℝ) = (s : ℝ) - 1 := by
        have hc := congrArg (Nat.cast : ℕ → ℝ) hieq
        push_cast at hc
        linarith
      rw [hiR]
      field_simp
      ring
    rw [harg, Real.sin_two_pi_sub]

theorem sin_two_pi_div_pos (s : ℕ) (hs : 3 ≤ s) :
    0 < Real.sin (2 * Real.pi / s) := by
  have hpi := Real.pi_pos
  have hs' : (3 : ℝ) ≤ (s : ℝ) := by exact_mod_cast hs
  apply Real.sin_pos_of_pos_of_lt_pi
  · positivity
  · rw [div_lt_iff₀ (by linarith)]
    nlinarith

/-- The top-cap triangle normal in closed form: it is vertical with
z component -radius^2 * sin(2*pi/segments). -/
theorem topcap_normal_eq (p : CylinderParams) (h3 : 3 ≤ p.segments)
    (hr : 0 < p.getRadius) (hl : 0 < p.length) (i : ℕ)
    (hi : i < p.segments.toNat) :
    triNormal (generate p) ((generate p).tris.getD i (0, 0, 0)) =
      ⟨0, 0, -(p.getRadius * p.getRadius *
        Real.sin (2 * Real.pi / p.segments.toNat))⟩ := by
  have hgen := generate_of_valid p h3 hr hl
  set s := p.segments.toNat with hs
  set r := p.getRadius with hrd
  set hL := p.length / 2 with hLd
  have hs0 : 0 < s := by omega
  have hmod : (i + 1) % s < s := Nat.mod_lt _ hs0
  rw [hgen]
  show triNormal _ ((genTris s).getD i (0, 0, 0)) = _
  rw [genTris_getD_top s i hi]
  unfold triNormal triVert
  show ((genPoints r hL s).getD (2 + (i + 1) % s) 0 -
        (genPoints r hL s).getD 0 0).cross
       ((genPoints r hL s).getD (2 + i) 0 - (genPoints r hL s).getD 0 0) = _
  rw [genPoints_getD_top r hL s _ hmod, genPoints_getD_top r hL s i hi,
    genPoints_getD_topCenter]
  have hsin := sin_ringAngle_sub s i hs0 hi
  ext
  · simp [ringPoint, Vec3.cross]
  · simp [ringPoint, Vec3.cross]
  · simp only [ringPoint, Vec3.cross, Vec3.sub_x, Vec3.sub_y, Vec3.sub_z,
      Vec3.mk_x, Vec3.mk_y, Vec3.mk_z]
    rw [show -(r * r * Real.sin (2 * Real.pi / (s : ℝ))) =
        r * r * Real.sin (ringAngle s i - ringAngle s ((i + 1) % s)) from by
      rw [hsin]; ring]
    rw [Real.sin_sub]
    ring

/-- The statement of claim C9 at one parameter set: every top-cap
triangle (topApex, topRing[(i+1) mod segments], topRing[i]) has its
right-hand-rule face normal pointing outward along +Z: the normal is
vertical with positive z component. -/
def topCapOutwardClaim (p : CylinderParams) : Prop :=
  ∀ i < p.segments.toNat,
    (triNormal (generate p) ((generate p).tris.getD i (0, 0, 0))).x = 0 ∧
    (triNormal (generate p) ((generate p).tris.getD i (0, 0, 0))).y = 0 ∧
    0 < (triNormal (generate p) ((generate p).tris.getD i (0, 0, 0))).z

/-- C9 counterexample: at length 50, diameter 6, segments 3 (a valid
parameter set) the first top-cap triangle has normal
(0, 0, -9*sqrt(3)/2), whose z component is negative: the winding makes
the top-cap normal point along -Z (into the solid), not +Z. -/
theorem topcap_cex : ¬ topCapOutwardClaim ⟨50, 6, 3⟩ := by
  intro hcl
  obtain ⟨-, -, hz⟩ := hcl 0 (by norm_num)
  have hgen : generate ⟨50, 6, 3⟩ =
      ⟨genPoints ((6 : ℝ) / 2) ((50 : ℝ) / 2) 3, genTris 3⟩ :=
    generate_of_valid ⟨50, 6, 3⟩ (by norm_num)
      (by norm_num [CylinderParams.getRadius]) (by norm_num)
  have ht : (generate ⟨50, 6, 3⟩).tris.getD 0 (0, 0, 0) = (0, 2 + 1 % 3, 2 + 0) := by
    rw [hgen]
    exact genTris_getD_top 3 0 (by norm_num)
  rw [ht] at hz
  have eA : (generate ⟨50, 6, 3⟩).points.getD 0 0 = ⟨0, 0, (50 : ℝ) / 2⟩ := by
    rw [hgen]
    exact genPoints_getD_topCenter _ _ _
  have eB : (generate ⟨50, 6, 3⟩).points.getD (2 + 1 % 3) 0 =
      ringPoint ((6 : ℝ) / 2) ((50 : ℝ) / 2) 3 (1 % 3) := by
    rw [hgen]
    exact genPoints_getD_top _ _ 3 (1 % 3) (by norm_num)
  have eC : (generate ⟨50, 6, 3⟩).points.getD (2 + 0) 0 =
      ringPoint ((6 : ℝ) / 2) ((50 : ℝ) / 2) 3 0 := by
    rw [hgen]
    exact genPoints_getD_top _ _ 3 0 (by norm_num)
  unfold triNormal triVert at hz
  have hproj : ((0, 2 + 1 % 3, 2 + 0) : ℕ × ℕ × ℕ).1 = 0 ∧
      ((0, 2 + 1 % 3, 2 + 0) : ℕ × ℕ × ℕ).2.1 = 2 + 1 % 3 ∧
      ((0, 2 + 1 % 3, 2 + 0) : ℕ × ℕ × ℕ).2.2 = 2 + 0 := ⟨rfl, rfl, rfl⟩
  rw [hproj.1, hproj.2.1, hproj.2.2, eA, eB, eC] at hz
  have ha0 : ringAngle 3 0 = 0 := by
    unfold ringAngle
    push_cast
    ring
  have h13 : (1 : ℕ) % 3 = 1 := rfl
  have hsin1 : Real.sin (ringAngle 3 1) = Real.sqrt 3 / 2 := by
    have h : ringAngle 3 1 = Real.pi - Real.pi / 3 := by
      unfold ringAngle
      push_cast
      ring
    rw [h, Real.sin_pi_sub, Real.sin_pi_div_three]
  have hs3 : 0 < Real.sqrt 3 := Real.sqrt_pos.mpr (by norm_num)
  simp only [h13, ringPoint, ha0, Real.cos_zero, Real.sin_zero,
    cos_ringAngle_3_1, hsin1, Vec3.cross, Vec3.sub_x, Vec3.sub_y, Vec3.sub_z,
    Vec3.mk_x, Vec3.mk_y, Vec3.mk_z] at hz
  nlinarith

/-- C9 (amended): for every valid parameter set and every top-cap index
i, the top-cap triangle (topApex, topRing[(i+1) mod segments],
topRing[i]) has right-hand-rule face normal
(0, 0, -radius^2 * sin(2*pi/segments)), which points along -Z (into the
cylinder), opposite to the +Z direction the claim states. -/
theorem topcap_normal_inward (p : CylinderParams) (h3 : 3 ≤ p.segments)
    (hr : 0 < p.getRadius) (hl : 0 < p.length) (i : ℕ)
    (hi : i < p.segments.toNat) :
    triNormal (generate p) ((generate p).tris.getD i (0, 0, 0)) =
      ⟨0, 0, -(p.getRadius * p.getRadius *
        Real.sin (2 * Real.pi / p.segments.toNat))⟩ ∧
    (triNormal (generate p) ((generate p).tris.getD i (0, 0, 0))).z < 0 := by
  have heq := topcap_normal_eq p h3 hr hl i hi
  refine ⟨heq, ?_⟩
  rw [heq]
  have hpos : 0 < Real.sin (2 * Real.pi / p.segments.toNat) :=
    sin_two_pi_div_pos p.segments.toNat (by omega)
  simp only [Vec3.mk_z]
  nlinarith [mul_pos (mul_pos hr hr) hpos]

/-- C9 witness: the amended normal direction at length 50, diameter 6,
segments 3, top-cap index 0. -/
theorem topcap_normal_inward_witness :
    (3 ≤ (⟨50, 6, 3⟩ : CylinderParams).segments ∧
     0 < (⟨50, 6, 3⟩ : CylinderParams).getRadius ∧
     0 < (⟨50, 6, 3⟩ : CylinderParams).length ∧
     0 < (⟨50, 6, 3⟩ : CylinderParams).segments.toNat) ∧
    (triNormal (generate ⟨50, 6, 3⟩)
        ((generate ⟨50, 6, 3⟩).tris.getD 0 (0, 0, 0))).z < 0 := by
  have h3 : 3 ≤ (⟨50, 6, 3⟩ : CylinderParams).segments := by norm_num
  have hr : 0 < (⟨50, 6, 3⟩ : CylinderParams).getRadius := by
    norm_num [CylinderParams.getRadius]
  have hl : 0 < (⟨50, 6, 3⟩ : CylinderParams).length := by norm_num
  have hi : (0 : ℕ) < (⟨50, 6, 3⟩ : CylinderParams).segments.toNat := by
    norm_num
  exact ⟨⟨h3, hr, hl, hi⟩, (topcap_normal_inward ⟨50, 6, 3⟩ h3 hr hl 0 hi).2⟩

/-- Embedding of enum VisualMode (CutterVisualizer.h). -/
inductive VisualMode
  | Original
  | Cutter
  | Result
  | All
deriving DecidableEq

/-- Embedding of the CutterVisualizer member state (CutterVisualizer.h
lines 107-123): the three mesh slots, the display mode, and the view
parameters scale_, offset_, lastMousePos_, isDragging_, rotX_, rotY_. -/
structure VisState where
  targetMesh : Option Mesh
  cutterMesh : Option Mesh
  resultMesh : Option Mesh
  visualMode : VisualMode
  scale : ℝ
  offset : ℤ × ℤ
  lastMousePos : ℤ × ℤ
  isDragging : Bool
  rotX : ℝ
  rotY : ℝ

/-- Embedding of CutterVisualizer::setTargetMesh: replaces the target
slot and schedules a repaint (update() has no state effect). -/
def setTargetMesh (st : VisState) (m : Option Mesh) : VisState :=
  { st with targetMesh := m }

/-- Embedding of CutterVisualizer::setCutterMesh. -/
def setCutterMesh (st : VisState) (m : Option Mesh) : VisState :=
  { st with cutterMesh := m }

/-- Embedding of CutterVisualizer::setResultMesh. -/
def setResultMesh (st : VisState) (m : Option Mesh) : VisState :=
  { st with resultMesh := m }

/-- Embedding of CutterVisualizer::clearAll: resets the three slots. -/
def clearAll (st : VisState) : VisState :=
  { st with targetMesh := none, cutterMesh := none, resultMesh := none }

/-- Embedding of CutterVisualizer::setVisualMode. -/
def setVisualMode (st : VisState) (mode : VisualMode) : VisState :=
  { st with visualMode := mode }

/-- The camera state of the renderer: rotation angles, zoom, pan offset
and the dragging flag. -/
def cameraState (st : VisState) : ℝ × ℝ × ℝ × (ℤ × ℤ) × Bool :=
  (st.rotX, st.rotY, st.scale, st.offset, st.isDragging)

/-- C10: for every renderer state, setTargetMesh, setCutterMesh,
setResultMesh, clearAll and setVisualMode with any argument leave the
camera state (rotX_, rotY_, scale_, offset_, isDragging_) unchanged;
they modify only the mesh slots and/or the visual-mode selector. -/
theorem slot_ops_preserve_camera (st : VisState) (m1 m2 m3 : Option Mesh)
    (mode : VisualMode) :
    cameraState (setTargetMesh st m1) = cameraState st ∧
    cameraState (setCutterMesh st m2) = cameraState st ∧
    cameraState (setResultMesh st m3) = cameraState st ∧
    cameraState (clearAll st) = cameraState st ∧
    cameraState (setVisualMode st mode) = cameraState st :=
  ⟨rfl, rfl, rfl, rfl, rfl⟩

/-- Embedding of CutterVisualizer::wheelEvent (part_001 lines 426-432):
delta = angleDelta().y() / 120, scale_ *= pow(1.1, delta), then
scale_ = clamp(scale_, 0.1, 10.0). -/
def wheelEvent (st : VisState) (angleDeltaY : ℤ) : VisState :=
  let delta : ℝ := (angleDeltaY : ℝ) / 120
  { st with scale := clampR (st.scale * Real.rpow 1.1 delta) 0.1 10 }

/-- The initial renderer state: empty slots, mode All, scale_ = 1,
rotX_ = rotY_ = 0, not dragging (member initializers of
CutterVisualizer.h; the constructor also centers offset_). -/
def initVisState (off : ℤ × ℤ) : VisState :=
  ⟨none, none, none, VisualMode.All, 1, off, (0, 0), false, 0, 0⟩

theorem clampR_le (v : ℝ) : clampR v 0.1 10 ≤ 10 :=
  max_le (by norm_num) (min_le_right _ _)

theorem le_clampR (v : ℝ) : 0.1 ≤ clampR v 0.1 10 := le_max_left _ _

/-- The scale transition of one wheel event, as a function on reals. -/
def zoomStep (s : ℝ) (d : ℤ) : ℝ :=
  clampR (s * Real.rpow 1.1 ((d : ℝ) / 120)) 0.1 10

theorem foldl_wheelEvent_scale (ds : List ℤ) (st : VisState) :
    (ds.foldl wheelEvent st).scale = ds.foldl zoomStep st.scale := by
  induction ds generalizing st with
  | nil => rfl
  | cons d rest ih => exact ih (wheelEvent st d)

/-- C5: starting from the initial state, after every nonempty sequence
of scroll-wheel events (each of any sign and magnitude) the zoom factor
lies within [0.1, 10.0]; and ten ticks of +1 (angle delta +120) from
zoom 1 yield min(1.1^10, 10.0). -/
theorem zoom_clamp_invariant (off : ℤ × ℤ) (ds : List ℤ) (hne : ds ≠ []) :
    (0.1 ≤ (ds.foldl wheelEvent (initVisState off)).scale ∧
     (ds.foldl wheelEvent (initVisState off)).scale ≤ 10) ∧
    ((List.replicate 10 (120 : ℤ)).foldl wheelEvent
        (initVisState off)).scale = min ((1.1 : ℝ) ^ (10 : ℕ)) 10 := by
  constructor
  · have key : ∀ (l : List ℤ) (st : VisState), l ≠ [] →
        0.1 ≤ (l.foldl wheelEvent st).scale ∧
        (l.foldl wheelEvent st).scale ≤ 10 := by
      intro l
      induction l with
      | nil => intro st h; exact absurd rfl h
      | cons d rest ih =>
        intro st _
        rcases eq_or_ne rest [] with rfl | hre
        · exact ⟨le_clampR _, clampR_le _⟩
        · exact ih (wheelEvent st d) hre
    exact key ds (initVisState off) hne
  · rw [foldl_wheelEvent_scale]
    have hone : Real.rpow 1.1 (((120 : ℤ) : ℝ) / 120) = 1.1 := by
      norm_num
    have hstep : ∀ k : ℕ, k ≤ 10 →
        (List.replicate k (120 : ℤ)).foldl zoomStep
          (initVisState off).scale = (1.1 : ℝ) ^ k := by
      intro k
      induction k with
      | zero => intro _; simp [initVisState]
      | succ n ih =>
        intro hn
        rw [List.replicate_succ', List.foldl_append, ih (by omega)]
        simp only [List.foldl_cons, List.foldl_nil, zoomStep, hone]
        have hp : (1 : ℝ) ≤ (1.1 : ℝ) ^ n := one_le_pow₀ (by norm_num)
        have h1 : (1 : ℝ) ≤ (1.1 : ℝ) ^ n * 1.1 := by nlinarith
        have h2 : (1.1 : ℝ) ^ n * 1.1 ≤ 10 := by
          have hle : (1.1 : ℝ) ^ n * 1.1 = (1.1 : ℝ) ^ (n + 1) := by
            rw [pow_succ]
          rw [hle]
          calc (1.1 : ℝ) ^ (n + 1) ≤ (1.1 : ℝ) ^ 10 :=
                pow_le_pow_right₀ (by norm_num) (by omega)
            _ ≤ 10 := by norm_num
        unfold clampR
        rw [min_eq_left h2, max_eq_right (by linarith), pow_succ]
    rw [hstep 10 le_rfl, min_eq_left (by norm_num)]

/-- C5 witness: a single +1 tick (angle delta +120) stays in range and
the ten-tick scenario evaluates as stated. -/
theorem zoom_clamp_invariant_witness :
    ([(120 : ℤ)] ≠ ([] : List ℤ)) ∧
    ((0.1 ≤ (([(120 : ℤ)]).foldl wheelEvent (initVisState (0, 0))).scale ∧
      (([(120 : ℤ)]).foldl wheelEvent (initVisState (0, 0))).scale ≤ 10) ∧
     ((List.replicate 10 (120 : ℤ)).foldl wheelEvent
       (initVisState (0, 0))).scale = min ((1.1 : ℝ) ^ (10 : ℕ)) 10) := by
  have hne : [(120 : ℤ)] ≠ ([] : List ℤ) := by simp
  exact ⟨hne, zoom_clamp_invariant (0, 0) [(120 : ℤ)] hne⟩

/-- Truncation toward zero of a real to an integer: the effect of the
C++ float-to-int conversion in the QPoint constructor calls of
renderMesh. -/
def qtrunc (x : ℝ) : ℤ := if 0 ≤ x then ⌊x⌋ else ⌈x⌉

/-- Embedding of the per-vertex camera rotation of
CutterVisualizer::renderMesh (part_001 lines 261-269): rotate about X by
rotX_, then about Y by rotY_. -/
def rotatePt (rx ry : ℝ) (v : Vec3) : Vec3 :=
  let y1 := v.y * Real.cos rx - v.z * Real.sin rx
  let z1 := v.y * Real.sin rx + v.z * Real.cos rx
  ⟨v.x * Real.cos ry + z1 * Real.sin ry, y1,
   -v.x * Real.sin ry + z1 * Real.cos ry⟩

/-- The projection scale renderMesh actually uses (part_001 line 252):
`std::min(width(), height()) / 150.0f * scale_`. -/
def renderScale (w h : ℤ) (sc : ℝ) : ℝ := ((min w h : ℤ) : ℝ) / 150 * sc

/-- Embedding of the `project` lambda of renderMesh (lines 271-275):
rotate, scale, add the view center, flip Y, truncate to pixels. -/
def projectPt (w h : ℤ) (off : ℤ × ℤ) (rx ry sc : ℝ) (v : Vec3) : ℤ × ℤ :=
  let r := rotatePt rx ry v
  (qtrunc (((w / 2 + off.1 : ℤ) : ℝ) + r.x * renderScale w h sc),
   qtrunc (((h / 2 + off.2 : ℤ) : ℝ) - r.y * renderScale w h sc))

/-- Embedding of struct FaceDepth of renderMesh (lines 285-289): the
depth key and the three projected screen points of one triangle. -/
structure FaceDepth where
  depth : ℝ
  p0 : ℤ × ℤ
  p1 : ℤ × ℤ
  p2 : ℤ × ℤ

/-- The face data computed per triangle in renderMesh lines 292-308:
depth is the rotated centroid z, the points are the projected vertices. -/
def faceData (w h : ℤ) (off : ℤ × ℤ) (rx ry sc : ℝ) (m : Mesh)
    (t : ℕ × ℕ × ℕ) : FaceDepth :=
  let v0 := m.points.getD t.1 0
  let v1 := m.points.getD t.2.1 0
  let v2 := m.points.getD t.2.2 0
  { depth := (rotatePt rx ry ((1 / 3 : ℝ) • (v0 + v1 + v2))).z
    p0 := projectPt w h off rx ry sc v0
    p1 := projectPt w h off rx ry sc v1
    p2 := projectPt w h off rx ry sc v2 }

/-- Embedding of the depth sort of renderMesh (lines 310-312):
`std::sort` with comparator `a.depth > b.depth`, i.e. sorted so that
larger (farther) depths come first. -/
def sortFaces (l : List FaceDepth) : List FaceDepth :=
  l.mergeSort (fun a b => decide (b.depth ≤ a.depth))

/-- A QColor value: 8-bit rgb components and the alphaF opacity. -/
structure ColorA where
  r : ℕ
  g : ℕ
  b : ℕ
  alpha : ℝ

/-- One painter draw command issued by renderMesh: a filled triangle
polygon (lines 315-324) or the three edge outlines of a triangle
(lines 327-336). -/
inductive DrawCmd
  | fill (fd : FaceDepth) (col : ColorA)
  | edges (fd : FaceDepth) (col : ColorA)

/-- Embedding of CutterVisualizer::renderMesh (lines 248-337) as the
ordered list of draw commands it issues: all faces sorted far-to-near
are filled with the mesh color at alphaF = opacity * 0.3 (line 281),
then all edges are outlined with the unmodified pen color. -/
def renderCmds (w h : ℤ) (off : ℤ × ℤ) (rx ry sc : ℝ) (m : Mesh)
    (col : ColorA) (opacity : ℝ) : List DrawCmd :=
  let sorted := sortFaces (m.tris.map (faceData w h off rx ry sc m))
  sorted.map (fun fd => DrawCmd.fill fd { col with alpha := opacity * 0.3 }) ++
  sorted.map (fun fd => DrawCmd.edges fd col)

/-- QColor(100, 150, 255), the target mesh color (line 231), opaque. -/
def targetColor : ColorA := ⟨100, 150, 255, 1⟩

/-- QColor(255, 100, 100), the cutter mesh color (line 237), opaque. -/
def cutterColor : ColorA := ⟨255, 100, 100, 1⟩

/-- QColor(100, 255, 150), the result mesh color (line 243), opaque. -/
def resultColor : ColorA := ⟨100, 255, 150, 1⟩

/-- Maximum of a list of reals (0 for an empty list; only used on
nonempty lists). -/
def listMax (l : List ℝ) : ℝ :=
  match l with
  | [] => 0
  | a :: t => t.foldl max a

/-- Minimum of a list of reals (0 for an empty list). -/
def listMin (l : List ℝ) : ℝ :=
  match l with
  | [] => 0
  | a :: t => t.foldl min a

/-- Modelled from the spec: mesh->computeBoundingBox() of the external
geometry library (missing from src/) followed by the extent computation
of the checkMesh lambda (paintEvent lines 199-207): the largest of the
three bounding-box extents of the mesh points. -/
def meshExtent (m : Mesh) : ℝ :=
  max (listMax (m.points.map Vec3.x) - listMin (m.points.map Vec3.x))
    (max (listMax (m.points.map Vec3.y) - listMin (m.points.map Vec3.y))
      (listMax (m.points.map Vec3.z) - listMin (m.points.map Vec3.z)))

/-- Whether the target slot is drawn/measured this frame
(paintEvent lines 209-210 and 229-233). -/
def targetElig (st : VisState) : Prop :=
  st.visualMode = VisualMode.Original ∨ st.visualMode = VisualMode.All

/-- Whether the cutter slot is drawn/measured this frame. -/
def cutterElig (st : VisState) : Prop :=
  st.visualMode = VisualMode.Cutter ∨ st.visualMode = VisualMode.All

/-- Whether the result slot is drawn/measured this frame. -/
def resultElig (st : VisState) : Prop :=
  st.visualMode = VisualMode.Result ∨ st.visualMode = VisualMode.All

/-- One slot contribution to the visible mesh list: present, eligible
under the mode and nonempty. -/
def slotVisible (elig : Prop) (mo : Option Mesh) : List Mesh :=
  match mo with
  | none => []
  | some m => if elig ∧ m.points ≠ [] then [m] else []

/-- The meshes checkMesh runs on this frame, in source order target,
cutter, result (paintEvent lines 209-214). -/
def visibleMeshes (st : VisState) : List Mesh :=
  slotVisible (targetElig st) st.targetMesh ++
  slotVisible (cutterElig st) st.cutterMesh ++
  slotVisible (resultElig st) st.resultMesh

/-- The maxBound value of paintEvent (lines 196-214): starts at 50 and
folds in the largest extent of every visible mesh. -/
def autoFitBound (st : VisState) : ℝ :=
  (visibleMeshes st).foldl (fun b m => max b (meshExtent m)) 50

/-- The finalScale variable computed by paintEvent (lines 221-223):
baseScale = min(width, height) / (maxBound * 1.5), times the zoom
factor. This value is computed but never used by renderMesh. -/
def paintFinalScale (st : VisState) (w h : ℤ) : ℝ :=
  ((min w h : ℤ) : ℝ) / (autoFitBound st * 1.5) * st.scale

/-- One slot segment of the frame draw-command list: the renderMesh
commands when the slot is eligible, present and nonempty, else nothing
(paintEvent lines 229-245). -/
def slotSeg (w h : ℤ) (off : ℤ × ℤ) (rx ry sc : ℝ) (elig : Prop)
    (mo : Option Mesh) (col : ColorA) (opacity : ℝ) : List DrawCmd :=
  match mo with
  | none => []
  | some m =>
    if elig ∧ m.points ≠ [] then renderCmds w h off rx ry sc m col opacity
    else []

/-- Embedding of CutterVisualizer::paintEvent (lines 188-246) as the
ordered list of mesh draw commands of one frame: nothing when no mesh is
visible (the placeholder text branch), otherwise the renderMesh command
sequences for the target, cutter and result slots in that order, with
their fixed colors and opacity arguments 0.7, 0.5 and 1.0. -/
def frameCmds (st : VisState) (w h : ℤ) : List DrawCmd :=
  if visibleMeshes st = [] then []
  else
    slotSeg w h st.offset st.rotX st.rotY st.scale (targetElig st)
      st.targetMesh targetColor 0.7 ++
    slotSeg w h st.offset st.rotX st.rotY st.scale (cutterElig st)
      st.cutterMesh cutterColor 0.5 ++
    slotSeg w h st.offset st.rotX st.rotY st.scale (resultElig st)
      st.resultMesh resultColor 1.0

/-- The fill commands of a command list, in paint order. -/
def fillsOf : List DrawCmd → List (FaceDepth × ColorA)
  | [] => []
  | DrawCmd.fill fd col :: rest => (fd, col) :: fillsOf rest
  | DrawCmd.edges _ _ :: rest => fillsOf rest

@[ext] theorem FaceDepth.ext_fields {a b : FaceDepth} (h1 : a.depth = b.depth)
    (h2 : a.p0 = b.p0) (h3 : a.p1 = b.p1) (h4 : a.p2 = b.p2) : a = b := by
  cases a; cases b; simp_all

/-- Membership in the projected screen triangle of a face: the convex
hull of its three integer screen points, as a subset of the real plane. -/
def inScreenTri (fd : FaceDepth) (q : ℝ × ℝ) : Prop :=
  ∃ a b c : ℝ, 0 ≤ a ∧ 0 ≤ b ∧ 0 ≤ c ∧ a + b + c = 1 ∧
    q.1 = a * (fd.p0.1 : ℝ) + b * (fd.p1.1 : ℝ) + c * (fd.p2.1 : ℝ) ∧
    q.2 = a * (fd.p0.2 : ℝ) + b * (fd.p1.2 : ℝ) + c * (fd.p2.2 : ℝ)

/-- Two faces do not overlap in screen space. -/
def screenDisjoint (f g : FaceDepth) : Prop :=
  ∀ q : ℝ × ℝ, ¬(inScreenTri f q ∧ inScreenTri g q)

/-- Default entry for fill-list lookups. -/
def defaultFill : FaceDepth × ColorA := (⟨0, (0, 0), (0, 0), (0, 0)⟩, ⟨0, 0, 0, 0⟩)

/-- The statement of claim C6: in every frame, for every two drawn
triangle fills that do not overlap in screen space, the one with the
larger (farther) centroid depth is painted first: if fill i is farther
than fill j then i comes before j in paint order. -/
def paintersOrderClaim : Prop :=
  ∀ (st : VisState) (w h : ℤ) (i j : ℕ),
    i < (fillsOf (frameCmds st w h)).length →
    j < (fillsOf (frameCmds st w h)).length →
    screenDisjoint ((fillsOf (frameCmds st w h)).getD i defaultFill).1
      ((fillsOf (frameCmds st w h)).getD j defaultFill).1 →
    ((fillsOf (frameCmds st w h)).getD j defaultFill).1.depth <
      ((fillsOf (frameCmds st w h)).getD i defaultFill).1.depth →
    i < j

theorem sortFaces_singleton (f : FaceDepth) : sortFaces [f] = [f] :=
  List.perm_singleton.mp (List.mergeSort_perm [f] _)

theorem sortFaces_pairwise (l : List FaceDepth) :
    (sortFaces l).Pairwise (fun a b => b.depth ≤ a.depth) := by
  have h : (sortFaces l).Pairwise
      (fun a b => decide (b.depth ≤ a.depth) = true) := by
    apply List.sorted_mergeSort
    · intro a b c hab hbc
      simp only [decide_eq_true_eq] at hab hbc ⊢
      linarith
    · intro a b
      simp only [Bool.or_eq_true, decide_eq_true_eq]
      exact le_total b.depth a.depth
  exact h.imp (fun hab => of_decide_eq_true hab)

theorem fillsOf_append (l1 l2 : List DrawCmd) :
    fillsOf (l1 ++ l2) = fillsOf l1 ++ fillsOf l2 := by
  induction l1 with
  | nil => rfl
  | cons c t ih => cases c <;> simp [fillsOf, ih]

theorem fillsOf_map_fill (l : List FaceDepth) (col : ColorA) :
    fillsOf (l.map (fun fd => DrawCmd.fill fd col)) =
      l.map (fun fd => (fd, col)) := by
  induction l with
  | nil => rfl
  | cons a t ih => simp [fillsOf, ih]

theorem fillsOf_map_edges (l : List FaceDepth) (col : ColorA) :
    fillsOf (l.map (fun fd => DrawCmd.edges fd col)) = [] := by
  induction l with
  | nil => rfl
  | cons a t ih => simp [fillsOf, ih]

theorem fillsOf_renderCmds (w h : ℤ) (off : ℤ × ℤ) (rx ry sc opacity : ℝ)
    (m : Mesh) (col : ColorA) :
    fillsOf (renderCmds w h off rx ry sc m col opacity) =
      (sortFaces (m.tris.map (faceData w h off rx ry sc m))).map
        (fun fd => (fd, { col with alpha := opacity * 0.3 })) := by
  simp only [renderCmds]
  rw [fillsOf_append, fillsOf_map_fill, fillsOf_map_edges, List.append_nil]

/-- C6 (amended): within each single mesh drawn in a frame, the fills
are painted in non-increasing depth order (farthest first), so for two
triangles of the same mesh the nearer fill is always painted after the
farther one; across different meshes the paint order is the fixed slot
order target, cutter, result, regardless of depth. -/
theorem renderMesh_fills_depth_sorted (w h : ℤ) (off : ℤ × ℤ)
    (rx ry sc opacity : ℝ) (m : Mesh) (col : ColorA) :
    List.Pairwise (fun a b => b.1.depth ≤ a.1.depth)
      (fillsOf (renderCmds w h off rx ry sc m col opacity)) := by
  rw [fillsOf_renderCmds]
  exact List.Pairwise.map _ (fun a b hab => hab) (sortFaces_pairwise _)

/-- A near target-slot triangle in the screen right half plane. -/
def triA : Mesh := ⟨[⟨30, 0, 0⟩, ⟨40, 0, 0⟩, ⟨30, 10, 0⟩], [(0, 1, 2)]⟩

/-- A far result-slot triangle in the screen left half plane. -/
def triB : Mesh := ⟨[⟨-40, 0, 10⟩, ⟨-30, 0, 10⟩, ⟨-40, 10, 10⟩], [(0, 1, 2)]⟩

/-- A concrete frame: target slot holds the near triangle, result slot
the far one, mode All, default camera. -/
def exState : VisState :=
  ⟨some triA, none, some triB, VisualMode.All, 1, (0, 0), (0, 0), false, 0, 0⟩

/-- The two face records of the example frame. -/
def exFaceA : FaceDepth := faceData 300 300 (0, 0) 0 0 1 triA (0, 1, 2)

def exFaceB : FaceDepth := faceData 300 300 (0, 0) 0 0 1 triB (0, 1, 2)

theorem visibleMeshes_exState : visibleMeshes exState = [triA, triB] := by
  unfold visibleMeshes slotVisible
  show (if targetElig exState ∧ triA.points ≠ [] then [triA] else []) ++
    [] ++ (if resultElig exState ∧ triB.points ≠ [] then [triB] else []) = _
  rw [if_pos ⟨Or.inr rfl, by simp [triA]⟩, if_pos ⟨Or.inr rfl, by simp [triB]⟩]
  rfl

theorem renderCmds_singleton (w h : ℤ) (off : ℤ × ℤ) (rx ry sc : ℝ)
    (m : Mesh) (t : ℕ × ℕ × ℕ) (hm : m.tris = [t]) (col : ColorA) (op : ℝ) :
    renderCmds w h off rx ry sc m col op =
      [DrawCmd.fill (faceData w h off rx ry sc m t)
        { col with alpha := op * 0.3 },
       DrawCmd.edges (faceData w h off rx ry sc m t) col] := by
  unfold renderCmds
  rw [hm]
  simp only [List.map_cons, List.map_nil, sortFaces_singleton]
  rfl

theorem frameCmds_exState :
    frameCmds exState 300 300 =
      [DrawCmd.fill exFaceA ⟨100, 150, 255, 0.7 * 0.3⟩,
       DrawCmd.edges exFaceA targetColor,
       DrawCmd.fill exFaceB ⟨100, 255, 150, 1.0 * 0.3⟩,
       DrawCmd.edges exFaceB resultColor] := by
  have hT : slotSeg 300 300 (0, 0) 0 0 1 (targetElig exState) (some triA)
      targetColor 0.7 = renderCmds 300 300 (0, 0) 0 0 1 triA targetColor 0.7 := by
    simp only [slotSeg]
    rw [if_pos ⟨Or.inr rfl, by simp [triA]⟩]
  have hR : slotSeg 300 300 (0, 0) 0 0 1 (resultElig exState) (some triB)
      resultColor 1.0 = renderCmds 300 300 (0, 0) 0 0 1 triB resultColor 1.0 := by
    simp only [slotSeg]
    rw [if_pos ⟨Or.inr rfl, by simp [triB]⟩]
  have hmain : frameCmds exState 300 300 =
      slotSeg 300 300 (0, 0) 0 0 1 (targetElig exState) (some triA)
        targetColor 0.7 ++
      slotSeg 300 300 (0, 0) 0 0 1 (cutterElig exState) none cutterColor 0.5 ++
      slotSeg 300 300 (0, 0) 0 0 1 (resultElig exState) (some triB)
        resultColor 1.0 := by
    unfold frameCmds
    rw [if_neg (by rw [visibleMeshes_exState]; simp)]
    rfl
  rw [hmain, hT, hR,
    renderCmds_singleton 300 300 (0, 0) 0 0 1 triA (0, 1, 2) rfl targetColor 0.7,
    renderCmds_singleton 300 300 (0, 0) 0 0 1 triB (0, 1, 2) rfl resultColor 1.0]
  rfl

theorem fills_exState :
    fillsOf (frameCmds exState 300 300) =
      [(exFaceA, ⟨100, 150, 255, 0.7 * 0.3⟩),
       (exFaceB, ⟨100, 255, 150, 1.0 * 0.3⟩)] := by
  rw [frameCmds_exState]
  rfl

theorem qtrunc_of_eq_int (x : ℝ) (n : ℤ) (h : x = (n : ℝ)) : qtrunc x = n := by
  subst h
  unfold qtrunc
  split <;> simp

theorem rotatePt_zero (v : Vec3) : rotatePt 0 0 v = v := by
  unfold rotatePt
  ext <;> simp

theorem faceData_eval (w h : ℤ) (off : ℤ × ℤ) (rx ry sc : ℝ) (m : Mesh)
    (t : ℕ × ℕ × ℕ) (v0 v1 v2 : Vec3) (h0 : m.points.getD t.1 0 = v0)
    (h1 : m.points.getD t.2.1 0 = v1) (h2 : m.points.getD t.2.2 0 = v2) :
    faceData w h off rx ry sc m t =
      ⟨(rotatePt rx ry ((1 / 3 : ℝ) • (v0 + v1 + v2))).z,
       projectPt w h off rx ry sc v0, projectPt w h off rx ry sc v1,
       projectPt w h off rx ry sc v2⟩ := by
  simp only [faceData]
  rw [h0, h1, h2]

theorem projectPt_ex (v : Vec3) (n1 n2 : ℤ)
    (h1 : (150 : ℝ) + v.x * 2 = (n1 : ℝ)) (h2 : (150 : ℝ) - v.y * 2 = (n2 : ℝ)) :
    projectPt 300 300 (0, 0) 0 0 1 v = (n1, n2) := by
  have hsc : renderScale 300 300 1 = 2 := by
    unfold renderScale
    norm_num
  simp only [projectPt, rotatePt_zero, hsc]
  refine Prod.ext (qtrunc_of_eq_int _ _ ?_) (qtrunc_of_eq_int _ _ ?_)
  · have hc : ((300 / 2 + ((0 : ℤ), (0 : ℤ)).1 : ℤ) : ℝ) = 150 := by norm_num
    rw [hc]
    exact h1
  · have hc : ((300 / 2 + ((0 : ℤ), (0 : ℤ)).2 : ℤ) : ℝ) = 150 := by norm_num
    rw [hc]
    exact h2

theorem exFaceA_eval : exFaceA = ⟨0, (210, 150), (230, 150), (210, 130)⟩ := by
  unfold exFaceA
  rw [faceData_eval 300 300 (0, 0) 0 0 1 triA (0, 1, 2) ⟨30, 0, 0⟩ ⟨40, 0, 0⟩
    ⟨30, 10, 0⟩ rfl rfl rfl]
  refine FaceDepth.ext_fields ?_ ?_ ?_ ?_
  · show (rotatePt 0 0 ((1 / 3 : ℝ) •
      ((⟨30, 0, 0⟩ : Vec3) + ⟨40, 0, 0⟩ + ⟨30, 10, 0⟩))).z = 0
    rw [rotatePt_zero]
    simp
  · exact projectPt_ex _ 210 150 (by norm_num) (by norm_num)
  · exact projectPt_ex _ 230 150 (by norm_num) (by norm_num)
  · exact projectPt_ex _ 210 130 (by norm_num) (by norm_num)

theorem exFaceB_eval : exFaceB = ⟨10, (70, 150), (90, 150), (70, 130)⟩ := by
  unfold exFaceB
  rw [faceData_eval 300 300 (0, 0) 0 0 1 triB (0, 1, 2) ⟨-40, 0, 10⟩
    ⟨-30, 0, 10⟩ ⟨-40, 10, 10⟩ rfl rfl rfl]
  refine FaceDepth.ext_fields ?_ ?_ ?_ ?_
  · show (rotatePt 0 0 ((1 / 3 : ℝ) •
      ((⟨-40, 0, 10⟩ : Vec3) + ⟨-30, 0, 10⟩ + ⟨-40, 10, 10⟩))).z = 10
    rw [rotatePt_zero]
    simp
    norm_num
  · exact projectPt_ex _ 70 150 (by norm_num) (by norm_num)
  · exact projectPt_ex _ 90 150 (by norm_num) (by norm_num)
  · exact projectPt_ex _ 70 130 (by norm_num) (by norm_num)

theorem screenDisjoint_ex : screenDisjoint exFaceB exFaceA := by
  rw [exFaceA_eval, exFaceB_eval]
  rintro q ⟨⟨a, b, c, ha, hb, hc, habc, hqB, -⟩,
    ⟨d, e, f, hd, he, hf, hdef, hqA, -⟩⟩
  push_cast at hqB hqA
  linarith

/-- C6 counterexample: in the example frame the result-slot triangle is
farther (depth 10) than the target-slot triangle (depth 0) and the two
do not overlap on screen, yet the target fill (index 0) is painted
before the result fill (index 1) because the slots are rendered in the
fixed order target, cutter, result with only per-mesh depth sorting:
the claimed frame-wide painter ordering fails. -/
theorem painters_cex : ¬ paintersOrderClaim := by
  intro hcl
  have hlen : (fillsOf (frameCmds exState 300 300)).length = 2 := by
    rw [fills_exState]
    rfl
  have hg1 : (fillsOf (frameCmds exState 300 300)).getD 1 defaultFill =
      (exFaceB, ⟨100, 255, 150, 1.0 * 0.3⟩) := by
    rw [fills_exState]
    rfl
  have hg0 : (fillsOf (frameCmds exState 300 300)).getD 0 defaultFill =
      (exFaceA, ⟨100, 150, 255, 0.7 * 0.3⟩) := by
    rw [fills_exState]
    rfl
  have hda : exFaceA.depth = 0 := by rw [exFaceA_eval]
  have hdb : exFaceB.depth = 10 := by rw [exFaceB_eval]
  have h10 := hcl exState 300 300 1 0 (by omega) (by omega)
    (by rw [hg1, hg0]; exact screenDisjoint_ex)
    (by rw [hg1, hg0]; simp only; rw [hda, hdb]; norm_num)
  omega

/-- C7: in the example frame (viewport 300 x 300, zoom 1, a mesh of
largest extent 10 visible) the auto-fit scale computed by paintEvent is
min(300,300) / (50 * 1.5) * 1 = 4, but the scale renderMesh actually
projects with is min(300,300) / 150 * 1 = 2: the finalScale variable of
paintEvent is never passed to renderMesh, which hardcodes the divisor
150, so the claimed auto-fit scale is not the scale actually used. -/
theorem autofit_scale_divergence :
    renderScale 300 300 exState.scale = 2 ∧
    paintFinalScale exState 300 300 = 4 ∧
    renderScale 300 300 exState.scale ≠ paintFinalScale exState 300 300 := by
  have h1 : renderScale 300 300 exState.scale = 2 := by
    show renderScale 300 300 1 = 2
    unfold renderScale
    norm_num
  have hext_a : meshExtent triA = 10 := by
    unfold meshExtent triA listMax listMin
    norm_num [max_def, min_def]
  have hext_b : meshExtent triB = 10 := by
    unfold meshExtent triB listMax listMin
    norm_num [max_def, min_def]
  have hbound : autoFitBound exState = 50 := by
    unfold autoFitBound
    rw [visibleMeshes_exState]
    simp only [List.foldl_cons, List.foldl_nil, hext_a, hext_b]
    norm_num [max_def]
  have h2 : paintFinalScale exState 300 300 = 4 := by
    unfold paintFinalScale
    rw [hbound]
    show ((min 300 300 : ℤ) : ℝ) / (50 * 1.5) * 1 = 4
    norm_num
  exact ⟨h1, h2, by rw [h1, h2]; norm_num⟩

theorem fill_mem_renderCmds {w h : ℤ} {off : ℤ × ℤ} {rx ry sc op : ℝ}
    {m : Mesh} {col c : ColorA} {fd : FaceDepth}
    (hm : DrawCmd.fill fd c ∈ renderCmds w h off rx ry sc m col op) :
    c = { col with alpha := op * 0.3 } := by
  simp only [renderCmds] at hm
  rcases List.mem_append.mp hm with hm' | hm'
  · obtain ⟨fd', -, heq⟩ := List.mem_map.mp hm'
    cases heq
    rfl
  · obtain ⟨fd', -, heq⟩ := List.mem_map.mp hm'
    cases heq

theorem edges_mem_renderCmds {w h : ℤ} {off : ℤ × ℤ} {rx ry sc op : ℝ}
    {m : Mesh} {col c : ColorA} {fd : FaceDepth}
    (hm : DrawCmd.edges fd c ∈ renderCmds w h off rx ry sc m col op) :
    c = col := by
  simp only [renderCmds] at hm
  rcases List.mem_append.mp hm with hm' | hm'
  · obtain ⟨fd', -, heq⟩ := List.mem_map.mp hm'
    cases heq
  · obtain ⟨fd', -, heq⟩ := List.mem_map.mp hm'
    cases heq
    rfl

theorem fill_mem_slotSeg {w h : ℤ} {off : ℤ × ℤ} {rx ry sc op : ℝ}
    {elig : Prop} {mo : Option Mesh} {col c : ColorA} {fd : FaceDepth}
    (hm : DrawCmd.fill fd c ∈ slotSeg w h off rx ry sc elig mo col op) :
    c = { col with alpha := op * 0.3 } := by
  cases mo with
  | none => exact absurd hm (List.not_mem_nil _)
  | some m =>
    simp only [slotSeg] at hm
    split at hm
    · exact fill_mem_renderCmds hm
    · exact absurd hm (List.not_mem_nil _)

theorem edges_mem_slotSeg {w h : ℤ} {off : ℤ × ℤ} {rx ry sc op : ℝ}
    {elig : Prop} {mo : Option Mesh} {col c : ColorA} {fd : FaceDepth}
    (hm : DrawCmd.edges fd c ∈ slotSeg w h off rx ry sc elig mo col op) :
    c = col := by
  cases mo with
  | none => exact absurd hm (List.not_mem_nil _)
  | some m =>
    simp only [slotSeg] at hm
    split at hm
    · exact edges_mem_renderCmds hm
    · exact absurd hm (List.not_mem_nil _)

/-- The statement of claim C8: every triangle fill of a frame uses the
mesh color at the stated per-mesh translucency: the target color
(100,150,255) at 70%, the cutter color (255,100,100) at 50%, the result
color (100,255,150) fully opaque. -/
def fillAlphaClaim : Prop :=
  ∀ (st : VisState) (w h : ℤ) (fd : FaceDepth) (col : ColorA),
    DrawCmd.fill fd col ∈ frameCmds st w h →
    ((col.r, col.g, col.b) = (100, 150, 255) → col.alpha = 0.7) ∧
    ((col.r, col.g, col.b) = (255, 100, 100) → col.alpha = 0.5) ∧
    ((col.r, col.g, col.b) = (100, 255, 150) → col.alpha = 1)

/-- C8 counterexample: in the example frame the result mesh fill is
drawn with alphaF = 1.0 * 0.3 = 0.3, not fully opaque: renderMesh
multiplies every opacity argument by 0.3 (fillColor.setAlphaF(opacity *
0.3f)), so the fills are at 21%/15%/30%, not 70%/50%/100%. -/
theorem fill_alpha_cex : ¬ fillAlphaClaim := by
  intro hcl
  have hmem : DrawCmd.fill exFaceB ⟨100, 255, 150, 1.0 * 0.3⟩ ∈
      frameCmds exState 300 300 := by
    rw [frameCmds_exState]
    exact List.mem_cons_of_mem _ (List.mem_cons_of_mem _
      (List.mem_cons_self _ _))
  have h := (hcl exState 300 300 exFaceB ⟨100, 255, 150, 1.0 * 0.3⟩ hmem).2.2 rfl
  norm_num at h

/-- C8 (amended): every triangle fill of a frame uses its mesh color
with alphaF equal to 0.3 times the per-mesh opacity argument: target
(100,150,255) at 21%, cutter (255,100,100) at 15%, result (100,255,150)
at 30% - not 70%/50%/100% opaque; every edge outline uses the fully
opaque mesh color; and within each mesh all fills are painted before all
edge outlines. -/
theorem fill_edge_colors (st : VisState) (w h : ℤ) (fd : FaceDepth)
    (col : ColorA) :
    (DrawCmd.fill fd col ∈ frameCmds st w h →
      col = ⟨100, 150, 255, 0.7 * 0.3⟩ ∨ col = ⟨255, 100, 100, 0.5 * 0.3⟩ ∨
      col = ⟨100, 255, 150, 1.0 * 0.3⟩) ∧
    (DrawCmd.edges fd col ∈ frameCmds st w h →
      col = targetColor ∨ col = cutterColor ∨ col = resultColor) ∧
    (∀ (off : ℤ × ℤ) (rx ry sc op : ℝ) (m : Mesh) (c : ColorA),
      renderCmds w h off rx ry sc m c op =
        (sortFaces (m.tris.map (faceData w h off rx ry sc m))).map
          (fun f => DrawCmd.fill f { c with alpha := op * 0.3 }) ++
        (sortFaces (m.tris.map (faceData w h off rx ry sc m))).map
          (fun f => DrawCmd.edges f c)) := by
  refine ⟨?_, ?_, fun _ _ _ _ _ _ _ => rfl⟩
  · intro hm
    unfold frameCmds at hm
    split at hm
    · exact absurd hm (List.not_mem_nil _)
    · rcases List.mem_append.mp hm with hm' | hm'
      · rcases List.mem_append.mp hm' with hm'' | hm''
        · exact Or.inl (fill_mem_slotSeg hm'')
        · exact Or.inr (Or.inl (fill_mem_slotSeg hm''))
      · exact Or.inr (Or.inr (fill_mem_slotSeg hm'))
  · intro hm
    unfold frameCmds at hm
    split at hm
    · exact absurd hm (List.not_mem_nil _)
    · rcases List.mem_append.mp hm with hm' | hm'
      · rcases List.mem_append.mp hm' with hm'' | hm''
        · exact Or.inl (edges_mem_slotSeg hm'')
        · exact Or.inr (Or.inl (edges_mem_slotSeg hm''))
      · exact Or.inr (Or.inr (edges_mem_slotSeg hm'))

/-- C8 witness: the result fill of the example frame, with its actual
color (100,255,150) at alphaF 0.3. -/
theorem fill_edge_colors_witness :
    (DrawCmd.fill exFaceB ⟨100, 255, 150, 1.0 * 0.3⟩ ∈
      frameCmds exState 300 300) ∧
    ((⟨100, 255, 150, 1.0 * 0.3⟩ : ColorA) = ⟨100, 150, 255, 0.7 * 0.3⟩ ∨
     (⟨100, 255, 150, 1.0 * 0.3⟩ : ColorA) = ⟨255, 100, 100, 0.5 * 0.3⟩ ∨
     (⟨100, 255, 150, 1.0 * 0.3⟩ : ColorA) = ⟨100, 255, 150, 1.0 * 0.3⟩) := by
  have hmem : DrawCmd.fill exFaceB ⟨100, 255, 150, 1.0 * 0.3⟩ ∈
      frameCmds exState 300 300 := by
    rw [frameCmds_exState]
    exact List.mem_cons_of_mem _ (List.mem_cons_of_mem _
      (List.mem_cons_self _ _))
  exact ⟨hmem, (fill_edge_colors exState 300 300 exFaceB _).1 hmem⟩

/-- The distance of a point v from the line through p with unit
direction d: the length of the component of v - p orthogonal to d. -/
def distToLine (p d v : Vec3) : ℝ :=
  (v - p - ((v - p).dot d) • d).norm

/-- Sum of a list of vectors. -/
def sumV : List Vec3 → Vec3
  | [] => 0
  | v :: t => v + sumV t

/-- The centroid of the vertex set of a mesh. -/
def centroidOf (m : Mesh) : Vec3 :=
  ((m.points.length : ℝ))⁻¹ • sumV m.points

theorem sumV_x (l : List Vec3) : (sumV l).x = (l.map Vec3.x).sum := by
  induction l with
  | nil => rfl
  | cons v t ih => simp [sumV, ih]

theorem sumV_y (l : List Vec3) : (sumV l).y = (l.map Vec3.y).sum := by
  induction l with
  | nil => rfl
  | cons v t ih => simp [sumV, ih]

theorem sumV_z (l : List Vec3) : (sumV l).z = (l.map Vec3.z).sum := by
  induction l with
  | nil => rfl
  | cons v t ih => simp [sumV, ih]

/-- Rotation by the axis-angle formula about an axis with k.z = 0 and
unit length maps a vector so that its dot product with the rotated
z-axis image d equals the original z coordinate. -/
theorem rotAxisAngle_dot (k : Vec3) (θ : ℝ) (v d : Vec3) (hkz : k.z = 0)
    (hk1 : k.normSq = 1)
    (hd : d = ⟨Real.sin θ * k.y, -(Real.sin θ * k.x), Real.cos θ⟩) :
    (rotAxisAngle k θ v).dot d = v.z := by
  obtain ⟨kx, ky, kz⟩ := k
  simp only [Vec3.mk_z] at hkz
  subst hkz
  subst hd
  have hk1' : kx * kx + ky * ky = 1 := by
    unfold Vec3.normSq at hk1
    simp only [Vec3.mk_x, Vec3.mk_y, Vec3.mk_z] at hk1
    linarith
  have hcs : Real.sin θ ^ 2 + Real.cos θ ^ 2 = 1 := Real.sin_sq_add_cos_sq θ
  unfold rotAxisAngle Vec3.dot Vec3.cross
  simp only [Vec3.add_x, Vec3.add_y, Vec3.add_z, Vec3.smul_x, Vec3.smul_y,
    Vec3.smul_z, Vec3.mk_x, Vec3.mk_y, Vec3.mk_z]
  linear_combination (Real.sin θ ^ 2 * v.z) * hk1' + v.z * hcs

/-- Rotation by the axis-angle formula about a unit axis with k.z = 0
preserves the squared length of every vector. -/
theorem rotAxisAngle_normSq (k : Vec3) (θ : ℝ) (v : Vec3) (hkz : k.z = 0)
    (hk1 : k.normSq = 1) :
    (rotAxisAngle k θ v).normSq = v.normSq := by
  obtain ⟨kx, ky, kz⟩ := k
  simp only [Vec3.mk_z] at hkz
  subst hkz
  have hk1' : kx * kx + ky * ky = 1 := by
    unfold Vec3.normSq at hk1
    simp only [Vec3.mk_x, Vec3.mk_y, Vec3.mk_z] at hk1
    linarith
  have hcs : Real.sin θ ^ 2 + Real.cos θ ^ 2 = 1 := Real.sin_sq_add_cos_sq θ
  unfold rotAxisAngle Vec3.dot Vec3.cross Vec3.normSq
  simp only [Vec3.add_x, Vec3.add_y, Vec3.add_z, Vec3.smul_x, Vec3.smul_y,
    Vec3.smul_z, Vec3.mk_x, Vec3.mk_y, Vec3.mk_z]
  linear_combination
    (Real.sin θ ^ 2 * (v.x * v.x + v.y * v.y + v.z * v.z) +
      (1 - Real.cos θ) * (1 - Real.cos θ) * (kx * v.x + ky * v.y) *
        (kx * v.x + ky * v.y)) * hk1' +
    ((v.x * v.x + v.y * v.y + v.z * v.z) -
      (kx * v.x + ky * v.y) * (kx * v.x + ky * v.y)) * hcs

/-- The squared length of the component of u orthogonal to a unit
vector d. -/
theorem normSq_perp (u d : Vec3) (hd : d.normSq = 1) :
    (u - (u.dot d) • d).normSq = u.normSq - (u.dot d) * (u.dot d) := by
  unfold Vec3.normSq Vec3.dot at *
  simp only [Vec3.sub_x, Vec3.sub_y, Vec3.sub_z, Vec3.smul_x, Vec3.smul_y,
    Vec3.smul_z]
  linear_combination ((u.x * d.x + u.y * d.y + u.z * d.z) *
    (u.x * d.x + u.y * d.y + u.z * d.z)) * hd

theorem norm_one_normSq {d : Vec3} (hd : d.norm = 1) : d.normSq = 1 := by
  have h0 : 0 ≤ d.normSq := by
    unfold Vec3.normSq
    nlinarith [mul_self_nonneg d.x, mul_self_nonneg d.y, mul_self_nonneg d.z]
  have hsq := congrArg (fun t => t ^ 2) hd
  simp only [Vec3.norm] at hsq
  rw [Real.sq_sqrt h0] at hsq
  simpa using hsq

theorem normalized_of_norm_one {d : Vec3} (hd : d.norm = 1) :
    d.normalized = d := by
  unfold Vec3.normalized
  rw [hd]
  ext <;> simp

theorem zAxis_dot (d : Vec3) : zAxis.dot d = d.z := by
  unfold Vec3.dot zAxis
  simp

theorem dot_zAxis (v : Vec3) : v.dot zAxis = v.z := by
  unfold Vec3.dot zAxis
  simp

/-- In the pure-translation branch taken for the exact axis directions,
distances from the target line equal the native radial distances. -/
theorem trans_branch_dist (d : Vec3)
    (hzd : d = ⟨0, 0, 1⟩ ∨ d = ⟨0, 0, -1⟩) (pos v : Vec3) :
    distToLine pos d (v + pos) = distToLine 0 zAxis v := by
  rcases hzd with rfl | rfl <;>
  · unfold distToLine Vec3.norm
    congr 1
    unfold Vec3.normSq Vec3.dot zAxis
    simp only [Vec3.sub_x, Vec3.sub_y, Vec3.sub_z, Vec3.add_x, Vec3.add_y,
      Vec3.add_z, Vec3.smul_x, Vec3.smul_y, Vec3.smul_z, Vec3.mk_x, Vec3.mk_y,
      Vec3.mk_z, Vec3.zero_x, Vec3.zero_y, Vec3.zero_z]
    ring

/-- In the rotation branch, the axis-angle rotation built by generateAt
maps the native axis onto d, and distances from the line through the
placement position along d equal the native radial distances. -/
theorem rot_branch_dist (d : Vec3) (hd1 : d.normSq = 1)
    (hz : |d.z| ≤ 0.9999) (pos v : Vec3) :
    distToLine pos d
      (rotAxisAngle ((zAxis.cross d).normalized)
        (Real.arccos (clampR (zAxis.dot d) (-1) 1)) v + pos) =
    distToLine 0 zAxis v := by
  obtain ⟨hz1, hz2⟩ := abs_le.mp hz
  have hdz2 : d.z * d.z ≤ 1 := by
    unfold Vec3.normSq at hd1
    nlinarith [sq_nonneg d.x, sq_nonneg d.y]
  have hclamp : clampR (zAxis.dot d) (-1) 1 = d.z := by
    rw [zAxis_dot]
    unfold clampR
    rw [min_eq_left (by linarith), max_eq_right (by linarith)]
  set θ := Real.arccos (clampR (zAxis.dot d) (-1) 1) with hθ
  set w : Vec3 := zAxis.cross d with hwdef
  have hwval : w = ⟨-d.y, d.x, 0⟩ := by
    rw [hwdef]
    unfold Vec3.cross zAxis
    ext <;> simp
  have hwns : w.normSq = 1 - d.z * d.z := by
    rw [hwval]
    unfold Vec3.normSq at hd1 ⊢
    simp only [Vec3.mk_x, Vec3.mk_y, Vec3.mk_z]
    nlinarith
  have hwpos : 0 < w.normSq := by
    rw [hwns]
    nlinarith
  set N := w.norm with hNdef
  have hN2 : N * N = w.normSq := Real.mul_self_sqrt (le_of_lt hwpos)
  have hNpos : 0 < N := Real.sqrt_pos.mpr hwpos
  set k := w.normalized with hkdef
  have hkval : k = ⟨1 / N * -d.y, 1 / N * d.x, 1 / N * 0⟩ := by
    rw [hkdef]
    unfold Vec3.normalized
    rw [← hNdef, hwval]
    ext <;> simp
  have hkz : k.z = 0 := by
    rw [hkval]
    simp
  have hk1 : k.normSq = 1 := by
    rw [hkval]
    unfold Vec3.normSq
    simp only [Vec3.mk_x, Vec3.mk_y, Vec3.mk_z]
    have : 1 / N * -d.y * (1 / N * -d.y) + 1 / N * d.x * (1 / N * d.x) +
        1 / N * 0 * (1 / N * 0) = (d.y * d.y + d.x * d.x) / (N * N) := by
      field_simp
    rw [this, hN2, hwns]
    unfold Vec3.normSq at hd1
    have hne : 1 - d.z * d.z ≠ 0 := by nlinarith
    field_simp
    linarith
  have hcos : Real.cos θ = d.z := by
    rw [hθ, hclamp]
    exact Real.cos_arccos (by linarith) (by linarith)
  have hsin : Real.sin θ = N := by
    rw [hθ, hclamp, Real.sin_arccos, hNdef]
    unfold Vec3.norm
    congr 1
    rw [hwns]
    ring
  have hdec : d = ⟨Real.sin θ * k.y, -(Real.sin θ * k.x), Real.cos θ⟩ := by
    rw [hsin, hcos, hkval]
    ext
    · simp only [Vec3.mk_x, Vec3.mk_y]
      field_simp
    · simp only [Vec3.mk_y, Vec3.mk_x]
      field_simp
    · simp
  have hA1 := rotAxisAngle_dot k θ v d hkz hk1 hdec
  have hA2 := rotAxisAngle_normSq k θ v hkz hk1
  have hcancel : rotAxisAngle k θ v + pos - pos = rotAxisAngle k θ v := by
    ext <;> simp
  unfold distToLine
  rw [hcancel]
  unfold Vec3.norm
  congr 1
  have hz0 : v - 0 = v := by ext <;> simp
  rw [hz0, normSq_perp _ _ hd1, normSq_perp _ _ (by unfold Vec3.normSq zAxis; norm_num),
    hA1, hA2, dot_zAxis]

theorem rotAxisAngle_add (k : Vec3) (θ : ℝ) (u v : Vec3) :
    rotAxisAngle k θ (u + v) = rotAxisAngle k θ u + rotAxisAngle k θ v := by
  unfold rotAxisAngle Vec3.cross Vec3.dot
  ext <;> simp <;> ring

theorem rotAxisAngle_zero_vec (k : Vec3) (θ : ℝ) : rotAxisAngle k θ 0 = 0 := by
  unfold rotAxisAngle Vec3.cross Vec3.dot
  ext <;> simp

theorem sumV_map_add_pos (pos : Vec3) (l : List Vec3) :
    sumV (l.map (fun v => v + pos)) = sumV l + (l.length : ℝ) • pos := by
  induction l with
  | nil =>
    show (0 : Vec3) = 0 + ((0 : ℕ) : ℝ) • pos
    ext <;> simp
  | cons v t ih =>
    simp only [List.map_cons, sumV, ih, List.length_cons]
    ext <;> simp <;> ring

theorem sumV_map_rot_add (k : Vec3) (θ : ℝ) (pos : Vec3) (l : List Vec3) :
    sumV (l.map (fun v => rotAxisAngle k θ v + pos)) =
      rotAxisAngle k θ (sumV l) + (l.length : ℝ) • pos := by
  induction l with
  | nil =>
    show (0 : Vec3) = rotAxisAngle k θ 0 + ((0 : ℕ) : ℝ) • pos
    rw [rotAxisAngle_zero_vec]
    ext <;> simp
  | cons v t ih =>
    simp only [List.map_cons, sumV, ih, List.length_cons, rotAxisAngle_add]
    ext <;> simp <;> ring

/-- The angular samples of one full ring sum to zero in both
coordinates: the sums of cos(2*pi*i/s) and of sin(2*pi*i/s) over i < s
vanish for s >= 3. -/
theorem sum_ring_trig (s : ℕ) (hs : 3 ≤ s) :
    (∑ i in Finset.range s, Real.cos (ringAngle s i)) = 0 ∧
    (∑ i in Finset.range s, Real.sin (ringAngle s i)) = 0 := by
  simp only [ringAngle]
  have hs0 : (s : ℝ) ≠ 0 := by positivity
  set z : ℂ := Complex.exp (2 * Real.pi * Complex.I / s) with hz
  have hzi : ∀ i : ℕ,
      z ^ i = Complex.exp (((2 * Real.pi * i / s : ℝ) : ℂ) * Complex.I) := by
    intro i
    rw [hz, ← Complex.exp_nat_mul]
    congr 1
    push_cast
    ring
  have hzs : z ^ s = 1 := by
    rw [hzi s]
    have hsC : (s : ℂ) ≠ 0 := by exact_mod_cast hs0
    have harg : ((2 * Real.pi * s / s : ℝ) : ℂ) * Complex.I =
        2 * Real.pi * Complex.I := by
      push_cast
      field_simp
    rw [harg, Complex.exp_two_pi_mul_I]
  have hzne : z ≠ 1 := by
    intro h
    have him : z.im = Real.sin (2 * Real.pi * 1 / s) := by
      have h1 : z = z ^ 1 := (pow_one z).symm
      rw [h1, hzi 1, Complex.exp_ofReal_mul_I_im]
      norm_num
    have hpos : 0 < Real.sin (2 * Real.pi * 1 / s) := by
      apply Real.sin_pos_of_pos_of_lt_pi
      · have := Real.pi_pos
        positivity
      · rw [div_lt_iff₀ (by positivity)]
        have hs' : (3 : ℝ) ≤ (s : ℝ) := by exact_mod_cast hs
        nlinarith [Real.pi_pos]
    rw [h, Complex.one_im] at him
    linarith
  have hsum : (∑ i in Finset.range s, z ^ i) = 0 := by
    rw [geom_sum_eq hzne, hzs]
    simp
  have hterm_re : ∀ i : ℕ, Real.cos (2 * Real.pi * i / s) = (z ^ i).re := by
    intro i
    rw [hzi i, Complex.exp_ofReal_mul_I_re]
  have hterm_im : ∀ i : ℕ, Real.sin (2 * Real.pi * i / s) = (z ^ i).im := by
    intro i
    rw [hzi i, Complex.exp_ofReal_mul_I_im]
  constructor
  · rw [Finset.sum_congr rfl (fun i _ => hterm_re i), ← Complex.re_sum, hsum,
      Complex.zero_re]
  · rw [Finset.sum_congr rfl (fun i _ => hterm_im i), ← Complex.im_sum, hsum,
      Complex.zero_im]

/-- The generated cylinder vertices sum to the zero vector: the two
centers cancel in z, each ring sums to zero in x and y by the root-of-
unity sums, and the two rings cancel in z. -/
theorem sumV_genPoints (radius half : ℝ) (s : ℕ) (hs : 3 ≤ s) :
    sumV (genPoints radius half s) = 0 := by
  obtain ⟨hc, hsn⟩ := sum_ring_trig s hs
  have hbridge : ∀ f : ℕ → ℝ,
      ((List.range s).map f).sum = ∑ i in Finset.range s, f i := fun _ => rfl
  ext
  · rw [sumV_x]
    simp only [genPoints, List.map_cons, List.map_append, List.map_map,
      List.sum_cons, List.sum_append, Function.comp_def, ringPoint, Vec3.mk_x]
    rw [hbridge, ← Finset.mul_sum, hc]
    simp
  · rw [sumV_y]
    simp only [genPoints, List.map_cons, List.map_append, List.map_map,
      List.sum_cons, List.sum_append, Function.comp_def, ringPoint, Vec3.mk_y]
    rw [hbridge, ← Finset.mul_sum, hsn]
    simp
  · rw [sumV_z]
    simp only [genPoints, List.map_cons, List.map_append, List.map_map,
      List.sum_cons, List.sum_append, Function.comp_def, ringPoint, Vec3.mk_z]
    rw [hbridge, hbridge]
    simp [Finset.sum_const, Finset.card_range]

theorem getD_map_lt {f : Vec3 → Vec3} {l : List Vec3} {n : ℕ}
    (h : n < l.length) (dflt dflt' : Vec3) :
    (l.map f).getD n dflt = f (l.getD n dflt') := by
  rw [List.getD_eq_getElem _ _ (by simpa using h), List.getD_eq_getElem _ _ h,
    List.getElem_map]

/-- C4 (amended): for every valid parameter set, position and unit
direction d that is either the exact native axis (d = +-z) or at least
about one degree away from it (|d.z| <= 0.9999), every generateAt vertex
has distance from the line through the position along d equal to the
radial distance of the corresponding generate vertex from the Z axis;
and for every unit direction (including the near-axis tolerance window)
the centroid of the generateAt vertex set equals the position. Inside
the tolerance window 0.9999 < |d.z| < 1 the code skips the rotation and
only translates, so distances are not preserved there (see the
counterexample). -/
theorem generateAt_isometry (p : CylinderParams) (pos d : Vec3)
    (h3 : 3 ≤ p.segments) (hr : 0 < p.getRadius) (hl : 0 < p.length)
    (hd : d.norm = 1) :
    ((|d.z| ≤ 0.9999 ∨ d = ⟨0, 0, 1⟩ ∨ d = ⟨0, 0, -1⟩) →
      ∀ i < (generateAt p pos d).points.length,
        distToLine pos d ((generateAt p pos d).points.getD i 0) =
          distToLine 0 zAxis ((generate p).points.getD i 0)) ∧
    centroidOf (generateAt p pos d) = pos := by
  have hd1 : d.normSq = 1 := norm_one_normSq hd
  have hne : (generate p).points ≠ [] := by
    rw [generate_of_valid p h3 hr hl]
    simp [genPoints]
  have hAt0 : generateAt p pos d =
      if |d.z| > 0.9999 then
        { generate p with points := (generate p).points.map (fun v => v + pos) }
      else
        { generate p with points := (generate p).points.map (fun v =>
            rotAxisAngle ((zAxis.cross d).normalized)
              (Real.arccos (clampR d.z (-1) 1)) v + pos) } := by
    simp only [generateAt]
    rw [if_neg hne, normalized_of_norm_one hd, zAxis_dot]
  have hcount : 0 < (generate p).points.length := by
    rw [generate_of_valid p h3 hr hl]
    show 0 < (genPoints p.getRadius (p.length / 2) p.segments.toNat).length
    rw [genPoints_length]
    omega
  have hsum0 : sumV (generate p).points = 0 := by
    rw [generate_of_valid p h3 hr hl]
    exact sumV_genPoints _ _ _ (by omega)
  have hlenne : ((generate p).points.length : ℝ) ≠ 0 := by
    exact_mod_cast hcount.ne'
  by_cases hbig : |d.z| > (0.9999 : ℝ)
  · rw [if_pos hbig] at hAt0
    constructor
    · intro hcase i hi
      have hdz : d = ⟨0, 0, 1⟩ ∨ d = ⟨0, 0, -1⟩ := by
        rcases hcase with hle | h | h
        · exact absurd hbig (not_lt.mpr hle)
        · exact Or.inl h
        · exact Or.inr h
      rw [hAt0] at hi ⊢
      rw [getD_map_lt (by simpa using hi) 0 0]
      exact trans_branch_dist d hdz pos _
    · rw [hAt0]
      unfold centroidOf
      show ((((generate p).points.map (fun v => v + pos)).length : ℝ))⁻¹ •
          sumV ((generate p).points.map (fun v => v + pos)) = pos
      rw [sumV_map_add_pos, hsum0, List.length_map]
      ext <;> simp <;> field_simp
  · rw [if_neg hbig] at hAt0
    have hble : |d.z| ≤ 0.9999 := not_lt.mp hbig
    constructor
    · intro _ i hi
      rw [hAt0] at hi ⊢
      rw [getD_map_lt (by simpa using hi) 0 0]
      have hkey := rot_branch_dist d hd1 hble pos ((generate p).points.getD i 0)
      rw [zAxis_dot] at hkey
      exact hkey
    · rw [hAt0]
      unfold centroidOf
      show ((((generate p).points.map (fun v =>
          rotAxisAngle ((zAxis.cross d).normalized)
            (Real.arccos (clampR d.z (-1) 1)) v + pos)).length : ℝ))⁻¹ •
          sumV ((generate p).points.map (fun v =>
            rotAxisAngle ((zAxis.cross d).normalized)
              (Real.arccos (clampR d.z (-1) 1)) v + pos)) = pos
      rw [sumV_map_rot_add, hsum0, rotAxisAngle_zero_vec, List.length_map]
      ext <;> simp <;> field_simp

/-- The statement of claim C4: for every valid parameter set, every
position and every unit direction, generateAt preserves each vertex
distance from the placement line and centers the mesh at the position. -/
def generateAtIsometryClaim : Prop :=
  ∀ (p : CylinderParams) (pos d : Vec3), 3 ≤ p.segments → 0 < p.getRadius →
    0 < p.length → d.norm = 1 →
    (∀ i < (generateAt p pos d).points.length,
      distToLine pos d ((generateAt p pos d).points.getD i 0) =
        distToLine 0 zAxis ((generate p).points.getD i 0)) ∧
    centroidOf (generateAt p pos d) = pos

/-- C4 counterexample: the unit direction (400/40001, 0, 39999/40001)
satisfies |dot with z| = 39999/40001 > 0.9999, so generateAt takes the
translation-only branch and skips the rotation; the top-ring vertex
(3, 0, 25) of the default-size cylinder with segments 3 then has
squared distance 12099340009/1600080001 (about 2.75^2) from the line
through the origin along d, not the radial distance 3: inside the
near-axis tolerance window the claimed distance preservation fails. -/
theorem generateAt_isometry_cex : ¬ generateAtIsometryClaim := by
  intro hcl
  set d : Vec3 := ⟨400 / 40001, 0, 39999 / 40001⟩ with hd
  have hnormSq : d.normSq = 1 := by
    rw [hd]
    unfold Vec3.normSq
    simp only [Vec3.mk_x, Vec3.mk_y, Vec3.mk_z]
    norm_num
  have hnorm : d.norm = 1 := by
    unfold Vec3.norm
    rw [hnormSq]
    exact Real.sqrt_one
  obtain ⟨hdist, -⟩ := hcl ⟨50, 6, 3⟩ 0 d (by norm_num)
    (by norm_num [CylinderParams.getRadius]) (by norm_num) hnorm
  have hgen : generate ⟨50, 6, 3⟩ =
      ⟨genPoints ((6 : ℝ) / 2) ((50 : ℝ) / 2) 3, genTris 3⟩ :=
    generate_of_valid ⟨50, 6, 3⟩ (by norm_num)
      (by norm_num [CylinderParams.getRadius]) (by norm_num)
  have hne : (generate ⟨50, 6, 3⟩).points ≠ [] := by
    rw [hgen]
    simp [genPoints]
  have hAt : generateAt ⟨50, 6, 3⟩ 0 d =
      { generate ⟨50, 6, 3⟩ with
        points := (generate ⟨50, 6, 3⟩).points.map (fun v => v + 0) } := by
    simp only [generateAt]
    rw [if_neg hne, normalized_of_norm_one hnorm, zAxis_dot]
    rw [if_pos (by rw [hd]; simp only [Vec3.mk_z]; rw [abs_of_pos] <;> norm_num)]
  have hglen : (generate ⟨50, 6, 3⟩).points.length = 8 := by
    rw [hgen]
    show (genPoints ((6 : ℝ) / 2) ((50 : ℝ) / 2) 3).length = 8
    rw [genPoints_length]
  have hrp : ringPoint ((6 : ℝ) / 2) ((50 : ℝ) / 2) 3 0 = ⟨3, 0, 25⟩ := by
    have ha0 : ringAngle 3 0 = 0 := by
      unfold ringAngle
      push_cast
      ring
    unfold ringPoint
    rw [ha0, Real.cos_zero, Real.sin_zero]
    ext <;> simp <;> norm_num
  have hgv : (generate ⟨50, 6, 3⟩).points.getD 2 0 = ⟨3, 0, 25⟩ := by
    rw [hgen]
    have := genPoints_getD_top ((6 : ℝ) / 2) ((50 : ℝ) / 2) 3 0 (by norm_num)
    rw [hrp] at this
    exact this
  have hv : (generateAt ⟨50, 6, 3⟩ 0 d).points.getD 2 0 = ⟨3, 0, 25⟩ := by
    rw [hAt]
    show ((generate ⟨50, 6, 3⟩).points.map (fun v => v + 0)).getD 2 0 = _
    rw [getD_map_lt (by rw [hglen]; norm_num) 0 0, hgv]
    ext <;> simp
  have h2 := hdist 2 (by
    rw [hAt]
    show 2 < ((generate ⟨50, 6, 3⟩).points.map (fun v => v + 0)).length
    rw [List.length_map, hglen]
    norm_num)
  rw [hv, hgv] at h2
  have hR : distToLine 0 zAxis ⟨3, 0, 25⟩ = 3 := by
    unfold distToLine Vec3.norm
    have hns : ((⟨3, 0, 25⟩ : Vec3) - 0 -
        (((⟨3, 0, 25⟩ : Vec3) - 0).dot zAxis) • zAxis).normSq = 9 := by
      unfold Vec3.normSq Vec3.dot zAxis
      simp only [Vec3.sub_x, Vec3.sub_y, Vec3.sub_z, Vec3.smul_x, Vec3.smul_y,
        Vec3.smul_z, Vec3.mk_x, Vec3.mk_y, Vec3.mk_z, Vec3.zero_x, Vec3.zero_y,
        Vec3.zero_z]
      norm_num
    rw [hns]
    rw [show (9 : ℝ) = 3 ^ 2 by norm_num, Real.sqrt_sq (by norm_num)]
  have hL9 : ((⟨3, 0, 25⟩ : Vec3) - 0 -
      (((⟨3, 0, 25⟩ : Vec3) - 0).dot d) • d).normSq =
      12099340009 / 1600080001 := by
    rw [hd]
    unfold Vec3.normSq Vec3.dot
    simp only [Vec3.sub_x, Vec3.sub_y, Vec3.sub_z, Vec3.smul_x, Vec3.smul_y,
      Vec3.smul_z, Vec3.mk_x, Vec3.mk_y, Vec3.mk_z, Vec3.zero_x, Vec3.zero_y,
      Vec3.zero_z]
    norm_num
  rw [hR] at h2
  unfold distToLine Vec3.norm at h2
  rw [hL9] at h2
  have hsq := congrArg (fun t => t ^ 2) h2
  simp only at hsq
  rw [Real.sq_sqrt (by norm_num)] at hsq
  norm_num at hsq

/-- C4 witness: the amended theorem at length 50, diameter 6,
segments 64, position (1,2,3), direction exactly the native +z axis. -/
theorem generateAt_isometry_witness :
    (3 ≤ (⟨50, 6, 64⟩ : CylinderParams).segments ∧
     0 < (⟨50, 6, 64⟩ : CylinderParams).getRadius ∧
     0 < (⟨50, 6, 64⟩ : CylinderParams).length ∧
     Vec3.norm ⟨0, 0, 1⟩ = 1) ∧
    (((|(⟨0, 0, 1⟩ : Vec3).z| ≤ 0.9999 ∨ (⟨0, 0, 1⟩ : Vec3) = ⟨0, 0, 1⟩ ∨
        (⟨0, 0, 1⟩ : Vec3) = ⟨0, 0, -1⟩) →
      ∀ i < (generateAt ⟨50, 6, 64⟩ ⟨1, 2, 3⟩ ⟨0, 0, 1⟩).points.length,
        distToLine ⟨1, 2, 3⟩ ⟨0, 0, 1⟩
            ((generateAt ⟨50, 6, 64⟩ ⟨1, 2, 3⟩ ⟨0, 0, 1⟩).points.getD i 0) =
          distToLine 0 zAxis ((generate ⟨50, 6, 64⟩).points.getD i 0)) ∧
     centroidOf (generateAt ⟨50, 6, 64⟩ ⟨1, 2, 3⟩ ⟨0, 0, 1⟩) = ⟨1, 2, 3⟩) := by
  have h3 : 3 ≤ (⟨50, 6, 64⟩ : CylinderParams).segments := by norm_num
  have hr : 0 < (⟨50, 6, 64⟩ : CylinderParams).getRadius := by
    norm_num [CylinderParams.getRadius]
  have hl : 0 < (⟨50, 6, 64⟩ : CylinderParams).length := by norm_num
  have hn : Vec3.norm ⟨0, 0, 1⟩ = 1 := by
    unfold Vec3.norm Vec3.normSq
    simp only [Vec3.mk_x, Vec3.mk_y, Vec3.mk_z]
    rw [show (0 : ℝ) * 0 + 0 * 0 + 1 * 1 = 1 by norm_num]
    exact Real.sqrt_one
  exact ⟨⟨h3, hr, hl, hn⟩,
    generateAt_isometry ⟨50, 6, 64⟩ ⟨1, 2, 3⟩ ⟨0, 0, 1⟩ h3 hr hl hn⟩

end

end CuttingSIM
